import Mathlib

/-!
Verification of the easyplant custom component: the `DailyHistory` rolling
per-day maximum tracker and the plant reading aggregation / threshold
evaluation logic, shallowly embedded from
`custom_components/easyplant/__init__.py`.

Modelling conventions: numeric Python values are `ℚ`, calendar days are
`Nat`, Python dictionaries are insertion-ordered association lists, and a
raised exception is an `Option PErr` component of a result (partial
mutations performed before the raise are kept, as in Python).
-/

namespace EasyPlant

/-- The kinds of exception the embedded code can raise
(`HomeAssistantError`, `KeyError`, `ValueError`, `TypeError`,
`IndexError`). -/
inductive PErr where
  | assoc | key | value | type | index
deriving DecidableEq, Repr

/-- A value passed to `DailyHistory.add_measurement`: an `int`/`float`,
or any non-numeric Python value (which fails the `isinstance` check). -/
inductive PyValue where
  | num (q : ℚ)
  | nonNum
deriving DecidableEq, Repr

/-- Python `max` over a list of values; `max` of an empty collection
raises `ValueError`, so the empty case is `none`. -/
def listMax : List ℚ → Option ℚ
  | [] => none
  | x :: xs =>
    match listMax xs with
    | none => some x
    | some m => some (Max.max x m)

/-! ### Python dictionaries as insertion-ordered association lists -/

/-- Python `d.get(k)` / `d[k]` lookup. -/
def dictGet {α β : Type} [DecidableEq α] (d : List (α × β)) (k : α) : Option β :=
  (d.find? (fun p => decide (p.1 = k))).map Prod.snd

/-- Python `d[k] = v`: overwrite in place if the key is present (keeping
its position in insertion order), otherwise append. -/
def dictSet {α β : Type} [DecidableEq α] (d : List (α × β)) (k : α) (v : β) : List (α × β) :=
  if (d.find? (fun p => decide (p.1 = k))).isSome
  then d.map (fun p => if p.1 = k then (k, v) else p)
  else d ++ [(k, v)]

/-- Python `del d[k]` (on a dictionary whose key is present). -/
def dictDel {α β : Type} [DecidableEq α] (d : List (α × β)) (k : α) : List (α × β) :=
  d.filter (fun p => decide (p.1 ≠ k))

/-! ### Python substring test (`sub in s`) -/

/-- Auxiliary: does `hay` start with `nee`? -/
def listStartsWith : List Char → List Char → Bool
  | _, [] => true
  | [], _ :: _ => false
  | a :: as, b :: bs => decide (a = b) && listStartsWith as bs

/-- Auxiliary: does the second list contain `nee` as a contiguous
sublist? -/
def listHasSub (nee : List Char) : List Char → Bool
  | [] => listStartsWith [] nee
  | c :: t => listStartsWith (c :: t) nee || listHasSub nee t

/-- Python's substring containment test `sub in hay`. -/
def pyIn (sub hay : String) : Bool := listHasSub sub.data hay.data

/-! ### DailyHistory

Embedded from class `DailyHistory`: one aggregate (maximum) value per
calendar day, for at most `max_length` days.  `days = none` models the
initial `self._days = None`; once a deque exists it is a `List Nat`
(oldest day first).  `maxDict` is the insertion-ordered `_max_dict`. -/

structure DailyHistory where
  maxLength : Nat
  days : Option (List Nat)
  maxDict : List (Nat × ℚ)
  max : Option ℚ
deriving DecidableEq, Repr

/-- `DailyHistory.__init__`. -/
def DailyHistory.init (maxLength : Nat) : DailyHistory :=
  { maxLength := maxLength, days := none, maxDict := [], max := none }

/-- The eviction step at the top of `_add_day`: if the deque is full,
`popleft` the oldest day and `del` its dictionary entry.  `popleft` on an
empty deque raises `IndexError`; `del` of a missing key raises
`KeyError`. -/
def popOldest (N : Nat) (ds : List Nat) (md : List (Nat × ℚ)) :
    (List Nat × List (Nat × ℚ)) × Option PErr :=
  if ds.length = N then
    match ds with
    | [] => ((ds, md), some PErr.index)
    | o :: rest =>
      if (dictGet md o).isSome then ((rest, dictDel md o), none)
      else ((rest, md), some PErr.key)
  else ((ds, md), none)

/-- `DailyHistory._add_day` acting on the deque and the dictionary:
evict if full, append the new day, and record the value as the day's
aggregate when it is numeric. -/
def addDay (N : Nat) (ds : List Nat) (md : List (Nat × ℚ)) (day : Nat) (v : PyValue) :
    (List Nat × List (Nat × ℚ)) × Option PErr :=
  match popOldest N ds md with
  | (dm, some e) => (dm, some e)
  | ((ds', md'), none) =>
    match v with
    | PyValue.num q => ((ds' ++ [day], dictSet md' day q), none)
    | PyValue.nonNum => ((ds' ++ [day], md'), none)

/-- The mutation part of `add_measurement` for a numeric value: create
the deque on first use, otherwise compare `day` with `self._days[-1]`
(update in place, open a new day, or drop an old measurement). -/
def measureStep (h : DailyHistory) (q : ℚ) (day : Nat) :
    (Option (List Nat) × List (Nat × ℚ)) × Option PErr :=
  match h.days with
  | none =>
    match addDay h.maxLength [] h.maxDict day (PyValue.num q) with
    | ((ds', md'), e) => ((some ds', md'), e)
  | some ds =>
    match ds.getLast? with
    | none => ((some ds, h.maxDict), some PErr.index)
    | some c =>
      if day = c then
        match dictGet h.maxDict day with
        | none => ((some ds, h.maxDict), some PErr.key)
        | some old => ((some ds, dictSet h.maxDict day (Max.max q old)), none)
      else if c < day then
        match addDay h.maxLength ds h.maxDict day (PyValue.num q) with
        | ((ds', md'), e) => ((some ds', md'), e)
      else ((some ds, h.maxDict), none)

def DailyHistory.addMeasurement (h : DailyHistory) (v : PyValue) (day : Nat) :
    DailyHistory × Option PErr :=
  match v with
  | PyValue.nonNum => (h, none)
  | PyValue.num q =>
    match measureStep h q day with
    | ((ds', md'), some e) => ({ h with days := ds', maxDict := md' }, some e)
    | ((ds', md'), none) =>
      match listMax (md'.map Prod.snd) with
      | none => ({ h with days := ds', maxDict := md' }, some PErr.value)
      | some m => ({ h with days := ds', maxDict := md', max := some m }, none)

/-- Feed a sequence of `(value, day)` measurements to a fresh
`DailyHistory(N)`.  A raised exception propagates: later calls never
happen. -/
def runHistory (N : Nat) (ms : List (PyValue × Nat)) : DailyHistory × Option PErr :=
  ms.foldl
    (fun acc m =>
      match acc.2 with
      | some _ => acc
      | none => DailyHistory.addMeasurement acc.1 m.1 m.2)
    (DailyHistory.init N, none)

/-- Structural well-formedness of a `DailyHistory`: `max` mirrors the
dictionary values, and when a deque exists it is a nonempty strictly
increasing list of at most `maxLength` days that coincides with the
dictionary's keys in order. -/
def histWF (N : Nat) (h : DailyHistory) : Prop :=
  h.maxLength = N ∧
  h.max = listMax (h.maxDict.map Prod.snd) ∧
  ((h.days = none ∧ h.maxDict = []) ∨
   (∃ ds, h.days = some ds ∧ ds ≠ [] ∧ ds.Sorted (· < ·) ∧ ds.length ≤ N ∧
          h.maxDict.map Prod.fst = ds))

/-! ### Trace-level specification of the retained window -/

/-- The days of the numeric measurements of a trace, in feed order. -/
def numDays (ms : List (PyValue × Nat)) : List Nat :=
  ms.filterMap fun m => match m.1 with
    | PyValue.num _ => some m.2
    | PyValue.nonNum => none

/-- The numeric values fed for day `d`, in feed order. -/
def valuesAt (ms : List (PyValue × Nat)) (d : Nat) : List ℚ :=
  ms.filterMap fun m => match m.1 with
    | PyValue.num q => if m.2 = d then some q else none
    | PyValue.nonNum => none

/-- Append a day to a run-collapsed day list (keeping one copy of a run
of equal adjacent days). -/
def snocDay (acc : List Nat) (d : Nat) : List Nat :=
  if acc.getLast? = some d then acc else acc ++ [d]

/-- The distinct days of a chronologically ordered day list. -/
def distinctDays (l : List Nat) : List Nat := l.foldl snocDay []

/-- The last (at most) `N` entries of a list. -/
def lastN (N : Nat) (l : List Nat) : List Nat := l.drop (l.length - N)

/-- The days retained after a chronologically fed trace: the most recent
(at most) `N` distinct days carrying numeric measurements. -/
def retainedSpec (N : Nat) (ms : List (PyValue × Nat)) : List Nat :=
  lastN N (distinctDays (numDays ms))

/-- All numeric values of the trace whose day is retained. -/
def retainedVals (N : Nat) (ms : List (PyValue × Nat)) : List ℚ :=
  ms.filterMap fun m => match m.1 with
    | PyValue.num q => if m.2 ∈ retainedSpec N ms then some q else none
    | PyValue.nonNum => none

/-- All numeric values of the trace whose day lies within the most
recent `N` calendar days of the latest day seen (the window as the
specification phrases it: within `(latest - N, latest]`). -/
def windowVals (N : Nat) (ms : List (PyValue × Nat)) : List ℚ :=
  match (numDays ms).getLast? with
  | none => []
  | some latest =>
    ms.filterMap fun m => match m.1 with
      | PyValue.num q => if m.2 ≤ latest ∧ latest < m.2 + N then some q else none
      | PyValue.nonNum => none

/-! ### Plant: reading categories, records and the plant state -/

/-- The reading categories of the `READINGS` table, in its iteration
order (`light_mmol` is commented out in the source). -/
inductive Reading where
  | light_lux | temp | env_humid | soil_moist | soil_ec | battery
deriving DecidableEq, Repr

/-- The name of a category, as used for substring association and in
problem strings. -/
def Reading.name : Reading → String
  | Reading.light_lux => "light_lux"
  | Reading.temp => "temp"
  | Reading.env_humid => "env_humid"
  | Reading.soil_moist => "soil_moist"
  | Reading.soil_ec => "soil_ec"
  | Reading.battery => "battery"

/-- The `READINGS` iteration order. -/
def readingsOrder : List Reading :=
  [Reading.light_lux, Reading.temp, Reading.env_humid, Reading.soil_moist,
   Reading.soil_ec, Reading.battery]

/-- The default unit of measurement of each category in `READINGS`. -/
def readingUnit : Reading → String
  | Reading.light_lux => "lux"
  | Reading.temp => "°C"
  | Reading.env_humid => "%"
  | Reading.soil_moist => "%"
  | Reading.soil_ec => "µS/cm"
  | Reading.battery => "%"

/-- The stored `ATTR_STATE` of a reading record: `None`, a number, or
the `"unavailable"` sentinel string (the sentinel constructor is kept so
that the test in `_check_reading` is translated faithfully). -/
inductive RState where
  | null
  | num (q : ℚ)
  | unavail
deriving DecidableEq, Repr

/-- A reading record as built by `_add_reading`. -/
structure ReadingRec where
  sensors : List String
  state : RState
  unit : String
  minimum : Option ℚ
  maximum : Option ℚ
deriving DecidableEq, Repr

/-- The keys of a reading record dictionary, in insertion order.  This
is what `for sensor in self._readings[reading]` in `state_changed`
actually iterates over (the record's keys, not its sensor list). -/
def readingRecKeys : List String :=
  ["sensors", "state", "unit_of_measurement", "minimum", "maximum"]

/-- The raw state string carried by a sensor state-change event: one of
the two sentinels, a numeric string parsing to a rational, or a
malformed string on which `float()` raises `ValueError`. -/
inductive SensorState where
  | unknown
  | unavailable
  | malformed
  | num (q : ℚ)
deriving DecidableEq, Repr

/-- A state-change event: the new raw state, the calendar day of
`last_updated`, and an optional unit-of-measurement attribute. -/
structure StateEvent where
  state : SensorState
  day : Nat
  unitOverride : Option String
deriving DecidableEq, Repr

/-- Python `int()` truncation toward zero on a rational. -/
def pyInt (q : ℚ) : ℤ := if 0 ≤ q then ⌊q⌋ else ⌈q⌉

/-- The per-plant configuration: the optional `min_…`/`max_…` bound per
category, `check_days`, and the statically configured sensors. -/
structure PlantCfg where
  minOf : Reading → Option ℚ
  maxOf : Reading → Option ℚ
  checkDays : Nat
  staticSensors : List (Reading × String)

/-- The mutable state of a `Plant` entity: the sensor association cache
`_sensors`, the reading records `_readings`, `_brightness_history`,
`_state` and `_problems`. -/
structure Plant where
  sensors : List (String × Reading)
  readings : List (Reading × ReadingRec)
  brightness : DailyHistory
  state : Option String
  problems : String
deriving DecidableEq, Repr

/-- `_add_reading`. -/
def mkReadingRec (cfg : PlantCfg) (r : Reading) (e : String) : ReadingRec :=
  { sensors := [e], state := RState.null, unit := readingUnit r,
    minimum := cfg.minOf r, maximum := cfg.maxOf r }

/-- One iteration of the static-sensor registration loop in
`Plant.__init__`. -/
def initStep (cfg : PlantCfg) (p : Plant) (re : Reading × String) : Plant :=
  { p with
      sensors := dictSet p.sensors re.2 re.1
      readings := dictSet p.readings re.1 (mkReadingRec cfg re.1 re.2) }

/-- `Plant.__init__`: cache the statically configured sensors, create
their reading records, and create the brightness history with
`check_days`. -/
def Plant.init (cfg : PlantCfg) : Plant :=
  cfg.staticSensors.foldl (initStep cfg)
    { sensors := [], readings := [], brightness := DailyHistory.init cfg.checkDays,
      state := none, problems := "none" }

/-- Python truthiness of an optional numeric bound (`if min_value`):
`None` and a zero bound are falsy. -/
def truthyQ : Option ℚ → Bool
  | none => false
  | some q => decide (q ≠ 0)

/-- `_check_min`.  For the light category the compared value is the
rolling `DailyHistory` maximum.  The outer `none` models the
`TypeError` raised when a `None` history maximum is compared against a
configured bound. -/
def checkMin (r : Reading) (minB : Option ℚ) (histMax : Option ℚ) (state : ℚ) :
    Option (Option String) :=
  let eff : Option ℚ := if r = Reading.light_lux then histMax else some state
  if truthyQ minB then
    match eff with
    | none => none
    | some s => some (if s < minB.getD 0 then some (r.name ++ " low") else none)
  else some none

/-- `_check_max`. -/
def checkMax (r : Reading) (maxB : Option ℚ) (state : ℚ) : Option String :=
  if truthyQ maxB then (if maxB.getD 0 < state then some (r.name ++ " high") else none)
  else none

/-- `_check_reading`; the outer `none` models a raised `TypeError`. -/
def checkReading (r : Reading) (rec : ReadingRec) (histMax : Option ℚ) :
    Option (Option String) :=
  match rec.state with
  | RState.unavail => some (some (r.name ++ " unavailable"))
  | RState.num q =>
    match checkMin r rec.minimum histMax q with
    | none => none
    | some (some s) => some (some s)
    | some none => some (checkMax r rec.maximum q)
  | RState.null => some none

/-- The problem collection of `_update_state` (the list comprehension
filtered by `None.__ne__`), in reading-iteration order; `none` models a
raise inside one of the checks. -/
def collectProblems (rds : List (Reading × ReadingRec)) (histMax : Option ℚ) :
    Option (List String) :=
  match rds with
  | [] => some []
  | pr :: rest =>
    match checkReading pr.1 pr.2 histMax with
    | none => none
    | some o =>
      match collectProblems rest histMax with
      | none => none
      | some ps =>
        some (match o with
          | some s => s :: ps
          | none => ps)

/-- `_update_state`. -/
def updateState (p : Plant) : Plant × Option PErr :=
  match collectProblems p.readings p.brightness.max with
  | none => (p, some PErr.type)
  | some ps =>
    if ps.isEmpty then
      ({ p with state := some "ok", problems := "none" }, none)
    else
      ({ p with
          state := some (if ps.all (fun s => pyIn "unavailable" s) then "unavailable"
                         else "problem")
          problems := String.intercalate ", " ps }, none)

/-- `_associate_sensor`: substring-match the sensor id against the
category names in `READINGS` order (first match wins); cache the
association and extend or create the category's reading record.  `none`
models the raised `HomeAssistantError`. -/
def associate (cfg : PlantCfg) (p : Plant) (e : String) : Option (Reading × Plant) :=
  match readingsOrder.find? (fun r => pyIn r.name e) with
  | none => none
  | some r =>
    match dictGet p.readings r with
    | some rec =>
      some (r, { p with
        sensors := dictSet p.sensors e r
        readings := dictSet p.readings r { rec with sensors := rec.sensors ++ [e] } })
    | none =>
      some (r, { p with
        sensors := dictSet p.sensors e r
        readings := dictSet p.readings r (mkReadingRec cfg r e) })

/-- `state_changed`.  `reg s` states whether
`hass.states.is_state(s, "unavailable")` holds for an entity name `s`.
The result pairs the plant state after the call (mutations made before
a raise are kept) with the raised exception, if any. -/
def stateChanged (cfg : PlantCfg) (reg : String → Bool) (p : Plant) (e : String)
    (ev : StateEvent) : Plant × Option PErr :=
  match (match dictGet p.sensors e with
         | some r => some (r, p)
         | none => associate cfg p e) with
  | none => (p, some PErr.assoc)
  | some (r, p1) =>
    if ev.state = SensorState.unknown then (p1, none)
    else if ev.state = SensorState.unavailable then
      match dictGet p1.readings r with
      | none => (p1, some PErr.key)
      | some _ =>
        if readingRecKeys.any (fun k => !(reg k)) then (p1, none)
        else (p1, some PErr.value)
    else
      match ev.state with
      | SensorState.num q0 =>
        match dictGet p1.readings r with
        | none => (p1, some PErr.key)
        | some rec =>
          let v : ℚ :=
            if r = Reading.temp ∨ r = Reading.env_humid then q0 else ((pyInt q0 : ℤ) : ℚ)
          let rec1 : ReadingRec := { rec with state := RState.num v }
          let p2 : Plant := { p1 with readings := dictSet p1.readings r rec1 }
          match (if r = Reading.light_lux
                 then p2.brightness.addMeasurement (PyValue.num v) ev.day
                 else (p2.brightness, none)) with
          | (hist, some err) => ({ p2 with brightness := hist }, some err)
          | (hist, none) =>
            let p3 : Plant := { p2 with brightness := hist }
            let p4 : Plant :=
              match ev.unitOverride with
              | some u =>
                { p3 with readings := dictSet p3.readings r { rec1 with unit := u } }
              | none => p3
            updateState p4
      | _ => (p1, some PErr.value)

/-- Run a sequence of state-change events against a freshly constructed
plant.  The host event loop catches an exception raised by one callback
and still delivers later events, so each step keeps the (possibly
partially mutated) plant and continues. -/
def runPlant (cfg : PlantCfg) (reg : String → Bool)
    (evs : List (String × StateEvent)) : Plant :=
  evs.foldl (fun p ev => (stateChanged cfg reg p ev.1 ev.2).1) (Plant.init cfg)

/-- The reading-record state invariant: every stored state is null or
numeric, never a sentinel string. -/
def recsNullOrNum (rds : List (Reading × ReadingRec)) : Prop :=
  ∀ pr ∈ rds, pr.2.state = RState.null ∨ ∃ q, pr.2.state = RState.num q

/-- The plant invariant: stored reading states are null or numeric and
the derived status is never the "unavailable" sentinel. -/
def plantInv (p : Plant) : Prop :=
  recsNullOrNum p.readings ∧ p.state ≠ some "unavailable"

/-- Modelled from the amended claim for the per-category check: the
minimum test fires first when its bound is configured and nonzero and
the effective value is below it, then the maximum test when its bound is
configured and nonzero and the raw value is above it. -/
def checkSpec (name : String) (minB maxB : Option ℚ) (eff raw : ℚ) : Option String :=
  if (match minB with | some m => decide (m ≠ 0) && decide (eff < m) | none => false) then
    some (name ++ " low")
  else if (match maxB with | some m => decide (m ≠ 0) && decide (m < raw) | none => false) then
    some (name ++ " high")
  else none

/-- A configuration with a single statically assigned light sensor, no
bounds and the default `check_days`. -/
def lightOnlyCfg : PlantCfg :=
  { minOf := fun _ => none, maxOf := fun _ => none, checkDays := 3,
    staticSensors := [(Reading.light_lux, "sensor.myplant_light_lux")] }

/-- A plant with one temperature reading between its configured bounds
exceeded on the low side. -/
def tempProblemPlant : Plant :=
  { sensors := [("sensor.p_temp", Reading.temp)],
    readings := [(Reading.temp,
      { sensors := ["sensor.p_temp"], state := RState.num 5, unit := "°C",
        minimum := some 10, maximum := some 30 })],
    brightness := DailyHistory.init 3, state := none, problems := "none" }

/-- A temperature record with a configured zero minimum bound and a
negative stored state. -/
def zeroMinRec : ReadingRec :=
  { sensors := ["sensor.p_temp"], state := RState.num (-5), unit := "°C",
    minimum := some 0, maximum := none }

/-- A plant with no sensors at all. -/
def emptyPlant : Plant :=
  { sensors := [], readings := [], brightness := DailyHistory.init 3,
    state := none, problems := "none" }

/-- A history at full capacity 2 holding days 1 and 2. -/
def twoDayHist : DailyHistory :=
  { maxLength := 2, days := some [1, 2], maxDict := [(1, 1), (2, 2)], max := some 2 }

/-- The previous history after day 3 arrives: day 1 evicted. -/
def twoDayHistEvicted : DailyHistory :=
  { maxLength := 2, days := some [2, 3], maxDict := [(2, 2), (3, 3)], max := some 3 }

/-- A one-day history holding the value 5 on day 3. -/
def oneDayHist : DailyHistory :=
  { maxLength := 2, days := some [3], maxDict := [(3, 5)], max := some 5 }

/-- A temperature record with bounds 10/30 and stored state 5. -/
def tempRec5 : ReadingRec :=
  { sensors := ["sensor.p_temp"], state := RState.num 5, unit := "°C",
    minimum := some 10, maximum := some 30 }

theorem listMax_eq_none {l : List ℚ} : listMax l = none ↔ l = [] := by
  cases l with
  | nil => simp [listMax]
  | cons x xs =>
    simp only [listMax]
    cases listMax xs <;> simp

theorem listMax_ne_none {l : List ℚ} (h : l ≠ []) : ∃ m, listMax l = some m := by
  cases hl : listMax l with
  | none => exact absurd (listMax_eq_none.mp hl) h
  | some m => exact ⟨m, rfl⟩

theorem listMax_mem {l : List ℚ} {m : ℚ} (h : listMax l = some m) : m ∈ l := by
  induction l generalizing m with
  | nil => simp [listMax] at h
  | cons x xs ih =>
    simp only [listMax] at h
    cases hxs : listMax xs with
    | none =>
      rw [hxs] at h
      simp only [Option.some.injEq] at h
      simp [h]
    | some m' =>
      rw [hxs] at h
      simp only [Option.some.injEq] at h
      rcases max_choice x m' with hc | hc
      · rw [← h, hc]
        exact List.mem_cons_self x xs
      · rw [← h, hc]
        exact List.mem_cons_of_mem x (ih hxs)

theorem le_listMax {l : List ℚ} {x m : ℚ} (hx : x ∈ l) (h : listMax l = some m) : x ≤ m := by
  induction l generalizing m with
  | nil => simp at hx
  | cons y ys ih =>
    simp only [listMax] at h
    rcases List.mem_cons.mp hx with hxy | hxys
    · cases hys : listMax ys with
      | none =>
        rw [hys] at h
        simp only [Option.some.injEq] at h
        rw [hxy, ← h]
      | some m' =>
        rw [hys] at h
        simp only [Option.some.injEq] at h
        rw [hxy, ← h]
        exact le_max_left _ _
    · cases hys : listMax ys with
      | none =>
        rw [listMax_eq_none.mp hys] at hxys
        simp at hxys
      | some m' =>
        rw [hys] at h
        simp only [Option.some.injEq] at h
        calc x ≤ m' := ih hxys hys
          _ ≤ m := h ▸ le_max_right _ _

/-- Two lists mutually dominated element-wise have the same maximum. -/
theorem listMax_congr {A B : List ℚ} (hA : ∀ a ∈ A, ∃ b ∈ B, a ≤ b)
    (hB : ∀ b ∈ B, ∃ a ∈ A, b ≤ a) : listMax A = listMax B := by
  cases hAe : listMax A with
  | none =>
    have hAnil := listMax_eq_none.mp hAe
    subst hAnil
    cases hBe : listMax B with
    | none => rfl
    | some mB =>
      obtain ⟨a, ha, _⟩ := hB mB (listMax_mem hBe)
      simp at ha
  | some mA =>
    have hmA : mA ∈ A := listMax_mem hAe
    obtain ⟨b, hb, hmAb⟩ := hA mA hmA
    have hBne : B ≠ [] := fun h => by simp [h] at hb
    obtain ⟨mB, hBe⟩ := listMax_ne_none hBne
    rw [hBe]
    obtain ⟨a, ha, hmBa⟩ := hB mB (listMax_mem hBe)
    have h1 : mA ≤ mB := le_trans hmAb (le_listMax hb hBe)
    have h2 : mB ≤ mA := le_trans hmBa (le_listMax ha hAe)
    rw [le_antisymm h1 h2]

theorem listMax_concat (l : List ℚ) (x : ℚ) :
    listMax (l ++ [x]) =
      some (match listMax l with | none => x | some m => Max.max m x) := by
  induction l with
  | nil => simp [listMax]
  | cons y ys ih =>
    cases hys : listMax ys with
    | none =>
      have h0 := listMax_eq_none.mp hys
      subst h0
      simp [listMax]
    | some m =>
      simp only [List.cons_append, listMax, List.append_eq]
      rw [ih, hys]
      simp [max_assoc]

theorem findKey_none {α β : Type} [DecidableEq α] {d : List (α × β)} {k : α}
    (h : k ∉ d.map Prod.fst) : d.find? (fun p => decide (p.1 = k)) = none := by
  rw [List.find?_eq_none]
  intro p hp
  simp only [decide_eq_true_eq]
  exact fun hfst => h (List.mem_map.mpr ⟨p, hp, hfst⟩)

theorem dictGet_eq_none {α β : Type} [DecidableEq α] {d : List (α × β)} {k : α} :
    dictGet d k = none ↔ k ∉ d.map Prod.fst := by
  constructor
  · intro h hk
    obtain ⟨p, hp, hfst⟩ := List.mem_map.mp hk
    rw [dictGet, Option.map_eq_none', List.find?_eq_none] at h
    have := h p hp
    simp [hfst] at this
  · intro h
    rw [dictGet, findKey_none h]
    rfl

theorem dictGet_isSome {α β : Type} [DecidableEq α] {d : List (α × β)} {k : α} :
    (dictGet d k).isSome = true ↔ k ∈ d.map Prod.fst := by
  cases hd : dictGet d k with
  | none =>
    simp only [Option.isSome_none, Bool.false_eq_true, false_iff]
    exact dictGet_eq_none.mp hd
  | some v =>
    simp only [Option.isSome_some, true_iff]
    by_contra hk
    have := dictGet_eq_none.mpr hk
    rw [hd] at this
    exact Option.noConfusion this

theorem dictGet_of_mem_nodup {α β : Type} [DecidableEq α] {d : List (α × β)} {k : α} {v : β}
    (hnd : (d.map Prod.fst).Nodup) (hmem : (k, v) ∈ d) : dictGet d k = some v := by
  induction d with
  | nil => simp at hmem
  | cons p t ih =>
    rcases List.mem_cons.mp hmem with hp | ht
    · rw [dictGet, List.find?_cons_of_pos _ (by simp [← hp])]
      simp [← hp]
    · have hk : k ∈ t.map Prod.fst := List.mem_map.mpr ⟨(k, v), ht, rfl⟩
      have hnd' : (t.map Prod.fst).Nodup := by
        rw [List.map_cons, List.nodup_cons] at hnd
        exact hnd.2
      have hne : p.1 ≠ k := by
        rw [List.map_cons, List.nodup_cons] at hnd
        exact fun h => hnd.1 (h ▸ hk)
      rw [dictGet, List.find?_cons_of_neg _ (by simp [hne])]
      have := ih hnd' ht
      rw [dictGet] at this
      exact this

theorem dictSet_of_not_mem {α β : Type} [DecidableEq α] {d : List (α × β)} {k : α} (v : β)
    (h : k ∉ d.map Prod.fst) : dictSet d k v = d ++ [(k, v)] := by
  rw [dictSet, findKey_none h]
  rfl

theorem dictSet_map_fst_of_mem {α β : Type} [DecidableEq α] {d : List (α × β)} {k : α} (v : β)
    (h : k ∈ d.map Prod.fst) : (dictSet d k v).map Prod.fst = d.map Prod.fst := by
  have hyes : (d.find? (fun p => decide (p.1 = k))).isSome = true := by
    cases hf : d.find? (fun p => decide (p.1 = k)) with
    | none =>
      rw [List.find?_eq_none] at hf
      obtain ⟨p, hp, hfst⟩ := List.mem_map.mp h
      have := hf p hp
      simp [hfst] at this
    | some q => rfl
  rw [dictSet, if_pos hyes, List.map_map]
  apply List.map_congr_left
  intro p _
  by_cases hp : p.1 = k <;> simp [hp]

theorem mem_dictSet {α β : Type} [DecidableEq α] {d : List (α × β)} {k : α} {v : β}
    {p : α × β} (h : p ∈ dictSet d k v) : p = (k, v) ∨ (p ∈ d ∧ p.1 ≠ k) := by
  rw [dictSet] at h
  by_cases hf : (d.find? (fun p => decide (p.1 = k))).isSome = true
  · rw [if_pos hf] at h
    obtain ⟨q, hq, hqe⟩ := List.mem_map.mp h
    subst hqe
    by_cases hqk : q.1 = k
    · left
      simp [hqk]
    · right
      simp only [if_neg hqk]
      exact ⟨hq, hqk⟩
  · rw [if_neg hf] at h
    rcases List.mem_append.mp h with hd | hlast
    · right
      refine ⟨hd, fun hk => ?_⟩
      cases hff : d.find? (fun p => decide (p.1 = k)) with
      | none =>
        rw [List.find?_eq_none] at hff
        have := hff p hd
        simp [hk] at this
      | some q =>
        rw [hff] at hf
        simp at hf
    · left
      simpa using hlast

theorem dictGet_nil {α β : Type} [DecidableEq α] {k : α} :
    dictGet ([] : List (α × β)) k = none := rfl

theorem dictGet_cons {α β : Type} [DecidableEq α] (x : α × β) (t : List (α × β)) (k : α) :
    dictGet (x :: t) k = if x.1 = k then some x.2 else dictGet t k := by
  by_cases hx : x.1 = k
  · rw [dictGet, List.find?_cons_of_pos _ (by simpa using hx), if_pos hx]
    rfl
  · rw [dictGet, List.find?_cons_of_neg _ (by simpa using hx), if_neg hx]
    rfl

theorem mem_of_dictGet {α β : Type} [DecidableEq α] {d : List (α × β)} {k : α} {v : β}
    (h : dictGet d k = some v) : (k, v) ∈ d := by
  induction d with
  | nil => simp [dictGet] at h
  | cons x t ih =>
    rw [dictGet_cons] at h
    by_cases hx : x.1 = k
    · rw [if_pos hx] at h
      have hxv : x = (k, v) := by
        have hx2 : x.2 = v := Option.some.inj h
        rw [← hx, ← hx2]
      rw [← hxv]
      exact List.mem_cons_self x t
    · rw [if_neg hx] at h
      exact List.mem_cons_of_mem x (ih h)

theorem dictGet_map_update {α β : Type} [DecidableEq α] (d : List (α × β)) (k : α) (v : β) :
    k ∈ d.map Prod.fst →
    dictGet (d.map (fun p => if p.1 = k then (k, v) else p)) k = some v := by
  induction d with
  | nil =>
    intro h
    simp at h
  | cons y t ih =>
    intro hmem
    by_cases hy : y.1 = k
    · rw [List.map_cons, if_pos hy, dictGet_cons, if_pos rfl]
    · rw [List.map_cons, if_neg hy, dictGet_cons, if_neg hy]
      refine ih ?_
      rcases List.mem_map.mp hmem with ⟨z, hz, hzk⟩
      rcases List.mem_cons.mp hz with rfl | hzt
      · exact absurd hzk hy
      · exact List.mem_map.mpr ⟨z, hzt, hzk⟩

theorem dictGet_append_single {α β : Type} [DecidableEq α] (d : List (α × β)) (k : α)
    (v : β) : k ∉ d.map Prod.fst → dictGet (d ++ [(k, v)]) k = some v := by
  induction d with
  | nil =>
    intro _
    rw [List.nil_append, dictGet_cons, if_pos rfl]
  | cons y t ih =>
    intro h
    have hy : ¬ y.1 = k := by
      intro hh
      exact h (by rw [List.map_cons, hh]; exact List.mem_cons_self _ _)
    rw [List.cons_append, dictGet_cons, if_neg hy]
    refine ih ?_
    intro hh
    exact h (by rw [List.map_cons]; exact List.mem_cons_of_mem _ hh)

theorem dictGet_dictSet_self {α β : Type} [DecidableEq α] (d : List (α × β)) (k : α)
    (v : β) : dictGet (dictSet d k v) k = some v := by
  by_cases hmem : k ∈ d.map Prod.fst
  · rw [dictSet, if_pos]
    · exact dictGet_map_update d k v hmem
    · rcases List.mem_map.mp hmem with ⟨z, hz, hzk⟩
      cases hc : d.find? (fun p => decide (p.1 = k)) with
      | none =>
        have := List.find?_eq_none.mp hc z hz
        simp [hzk] at this
      | some w => rfl
  · rw [dictSet_of_not_mem v hmem]
    exact dictGet_append_single d k v hmem

theorem dictGet_map_update_ne {α β : Type} [DecidableEq α] (d : List (α × β)) {k k' : α}
    (v : β) (hne : k' ≠ k) :
    dictGet (d.map (fun p => if p.1 = k then (k, v) else p)) k' = dictGet d k' := by
  induction d with
  | nil => rfl
  | cons y t ih =>
    by_cases hy : y.1 = k
    · rw [List.map_cons, if_pos hy, dictGet_cons, dictGet_cons]
      rw [if_neg (show ¬ (k, v).1 = k' from fun hh => hne hh.symm)]
      rw [if_neg (show ¬ y.1 = k' from by rw [hy]; exact fun hh => hne hh.symm)]
      exact ih
    · rw [List.map_cons, if_neg hy, dictGet_cons, dictGet_cons]
      by_cases hyk' : y.1 = k'
      · rw [if_pos hyk', if_pos hyk']
      · rw [if_neg hyk', if_neg hyk']
        exact ih

theorem dictGet_append_single_ne {α β : Type} [DecidableEq α] (d : List (α × β)) {k k' : α}
    (v : β) (hne : k' ≠ k) : dictGet (d ++ [(k, v)]) k' = dictGet d k' := by
  induction d with
  | nil =>
    rw [List.nil_append, dictGet_cons,
      if_neg (show ¬ (k, v).1 = k' from fun hh => hne hh.symm)]
  | cons y t ih =>
    rw [List.cons_append, dictGet_cons, dictGet_cons]
    by_cases hyk' : y.1 = k'
    · rw [if_pos hyk', if_pos hyk']
    · rw [if_neg hyk', if_neg hyk']
      exact ih

theorem dictGet_dictSet_ne {α β : Type} [DecidableEq α] (d : List (α × β)) {k k' : α}
    (v : β) (hne : k' ≠ k) : dictGet (dictSet d k v) k' = dictGet d k' := by
  by_cases hmem : k ∈ d.map Prod.fst
  · rw [dictSet, if_pos]
    · exact dictGet_map_update_ne d v hne
    · rcases List.mem_map.mp hmem with ⟨z, hz, hzk⟩
      cases hc : d.find? (fun p => decide (p.1 = k)) with
      | none =>
        have := List.find?_eq_none.mp hc z hz
        simp [hzk] at this
      | some w => rfl
  · rw [dictSet_of_not_mem v hmem]
    exact dictGet_append_single_ne d v hne

theorem dictDel_cons_head {α β : Type} [DecidableEq α] {t : List (α × β)} {k : α} {v : β}
    (h : k ∉ t.map Prod.fst) : dictDel ((k, v) :: t) k = t := by
  rw [dictDel, List.filter_cons]
  rw [if_neg (by simp)]
  apply List.filter_eq_self.mpr
  intro p hp
  simp only [decide_eq_true_eq]
  exact fun hfst => h (List.mem_map.mpr ⟨p, hp, hfst⟩)

theorem histWF_init (N : Nat) : histWF N (DailyHistory.init N) := by
  refine ⟨rfl, rfl, Or.inl ⟨rfl, rfl⟩⟩

/-- In a sorted list every element is at most the last one. -/
theorem sorted_le_getLast {ds : List Nat} {c e : Nat} (hs : ds.Sorted (· < ·))
    (hc : ds.getLast? = some c) (he : e ∈ ds) : e ≤ c := by
  have hne : ds ≠ [] := by
    intro h
    subst h
    simp at hc
  have hdec : ds.dropLast ++ [ds.getLast hne] = ds := List.dropLast_append_getLast hne
  have hceq : ds.getLast hne = c := by
    have := List.getLast?_eq_getLast ds hne
    rw [this] at hc
    exact Option.some.injEq _ _ ▸ hc.symm ▸ rfl
  rw [← hdec] at he hs
  rcases List.mem_append.mp he with hd | hl
  · have := (List.pairwise_append.mp hs).2.2 e hd (ds.getLast hne) (by simp)
    rw [hceq] at this
    exact le_of_lt this
  · simp only [List.mem_singleton] at hl
    rw [hl, hceq]

theorem mapfst_ne_nil {md : List (Nat × ℚ)} {ds : List Nat}
    (hkeys : md.map Prod.fst = ds) (hne : ds ≠ []) : md ≠ [] := by
  intro h
  rw [h] at hkeys
  exact hne hkeys.symm

theorem mapsnd_ne_nil {md : List (Nat × ℚ)} {ds : List Nat}
    (hkeys : md.map Prod.fst = ds) (hne : ds ≠ []) : md.map Prod.snd ≠ [] := by
  intro hsnd
  rw [List.map_eq_nil_iff] at hsnd
  subst hsnd
  exact hne (by simpa using hkeys.symm)

theorem addMeasurement_of_step {h : DailyHistory} {q : ℚ} {day : Nat}
    {ds' : Option (List Nat)} {md' : List (Nat × ℚ)} {m : ℚ}
    (hstep : measureStep h q day = ((ds', md'), none))
    (hm : listMax (md'.map Prod.snd) = some m) :
    h.addMeasurement (PyValue.num q) day =
      ({ h with days := ds', maxDict := md', max := some m }, none) := by
  unfold DailyHistory.addMeasurement
  simp only [hstep, hm]

/-- Any single `add_measurement` call on a well-formed history with a
positive capacity succeeds (raises nothing) and preserves
well-formedness. -/
theorem addMeasurement_wf {N : Nat} (hN : 0 < N) {h : DailyHistory} (hw : histWF N h)
    (v : PyValue) (day : Nat) :
    ∃ h', h.addMeasurement v day = (h', none) ∧ histWF N h' := by
  obtain ⟨hlen, hmax, hcases⟩ := hw
  cases v with
  | nonNum => exact ⟨h, rfl, hlen, hmax, hcases⟩
  | num q =>
    rcases hcases with ⟨hdn, hmd⟩ | ⟨ds, hds, hne, hsort, hlenle, hkeys⟩
    · -- No day has ever been recorded: open the first day.
      have hstep : measureStep h q day = ((some [day], [(day, q)]), none) := by
        unfold measureStep
        rw [hdn, hmd]
        unfold addDay popOldest
        rw [hlen]
        rw [if_neg (by simpa using (Nat.pos_iff_ne_zero.mp hN).symm)]
        simp [dictSet]
      have hm1 : listMax (([(day, q)] : List (Nat × ℚ)).map Prod.snd) = some q := by
        simp [listMax]
      refine ⟨_, addMeasurement_of_step hstep hm1, hlen, by simpa using hm1.symm,
        Or.inr ⟨[day], rfl, by simp, List.sorted_singleton day, by simpa using hN, by simp⟩⟩
    · -- A deque exists; compare with the most recently opened day.
      have hnd : ds.Nodup := hsort.imp (fun hab => ne_of_lt hab)
      have hlast : ds.getLast? = some (ds.getLast hne) := List.getLast?_eq_getLast ds hne
      have hmdne : h.maxDict ≠ [] := mapfst_ne_nil hkeys hne
      by_cases hdc : day = ds.getLast hne
      · -- Same day: update the day's aggregate in place.
        have hdaymem : day ∈ h.maxDict.map Prod.fst := by
          rw [hkeys, hdc]
          exact List.getLast_mem hne
        obtain ⟨old, hold⟩ := Option.isSome_iff_exists.mp (dictGet_isSome.mpr hdaymem)
        have hstep : measureStep h q day =
            ((some ds, dictSet h.maxDict day (Max.max q old)), none) := by
          unfold measureStep
          rw [hds]
          simp only [hlast]
          rw [if_pos hdc]
          simp only [hold]
        have hkeys' : (dictSet h.maxDict day (Max.max q old)).map Prod.fst = ds :=
          (dictSet_map_fst_of_mem _ hdaymem).trans hkeys
        obtain ⟨m, hm⟩ := listMax_ne_none (mapsnd_ne_nil hkeys' hne)
        exact ⟨_, addMeasurement_of_step hstep hm,
          hlen, by simpa using hm.symm, Or.inr ⟨ds, rfl, hne, hsort, hlenle, hkeys'⟩⟩
      · by_cases hcd : ds.getLast hne < day
        · -- A strictly newer day: evict if full, then open it.
          have hall : ∀ e ∈ ds, e < day := fun e he =>
            lt_of_le_of_lt (sorted_le_getLast hsort hlast he) hcd
          have hdaynot : day ∉ h.maxDict.map Prod.fst := by
            rw [hkeys]
            exact fun hmem => lt_irrefl day (hall day hmem)
          by_cases hfull : ds.length = N
          · -- Full: pop the oldest day and delete its aggregate.
            obtain ⟨o, rest, rfl⟩ : ∃ o rest, ds = o :: rest := by
              cases ds with
              | nil => exact absurd rfl hne
              | cons o rest => exact ⟨o, rest, rfl⟩
            obtain ⟨p0, mdT, hmdeq⟩ : ∃ p0 mdT, h.maxDict = p0 :: mdT := by
              cases hmd0 : h.maxDict with
              | nil => exact absurd hmd0 hmdne
              | cons p0 mdT => exact ⟨p0, mdT, rfl⟩
            rw [hmdeq] at hkeys
            simp only [List.map_cons, List.cons.injEq] at hkeys
            obtain ⟨hp0, hmdT⟩ := hkeys
            have horest : o ∉ rest := (List.nodup_cons.mp hnd).1
            have hdel : dictDel h.maxDict o = mdT := by
              rw [hmdeq, ← hp0]
              have hpe : p0 = (p0.1, p0.2) := rfl
              rw [hpe]
              exact dictDel_cons_head (by rw [hmdT]; exact (hp0 ▸ horest))
            have hget : (dictGet h.maxDict o).isSome = true := by
              rw [dictGet_isSome, hmdeq, List.map_cons, hp0]
              exact List.mem_cons_self _ _
            have hdaynotT : day ∉ mdT.map Prod.fst := by
              rw [hmdT]
              exact fun hmem => lt_irrefl day (hall day (List.mem_cons_of_mem o hmem))
            have hstep : measureStep h q day =
                ((some (rest ++ [day]), mdT ++ [(day, q)]), none) := by
              unfold measureStep
              rw [hds]
              simp only [hlast]
              rw [if_neg hdc, if_pos hcd]
              unfold addDay popOldest
              rw [hlen]
              simp only [if_pos hfull, hget, eq_self_iff_true, if_true, hdel,
                dictSet_of_not_mem q hdaynotT]
            obtain ⟨m, hm⟩ := listMax_ne_none
              (by simp : ((mdT ++ [(day, q)]).map Prod.snd) ≠ [])
            refine ⟨_, addMeasurement_of_step hstep hm, hlen, by simpa using hm.symm,
              Or.inr ⟨rest ++ [day], rfl, by simp, ?_, ?_, by simp [hmdT]⟩⟩
            · exact List.pairwise_append.mpr ⟨hsort.of_cons, List.sorted_singleton day,
                fun e he d hd => by
                  rw [List.mem_singleton.mp hd]
                  exact hall e (List.mem_cons_of_mem o he)⟩
            · have hlc := hfull
              simp only [List.length_cons] at hlc
              simp only [List.length_append, List.length_singleton]
              omega
          · -- Not full: append the new day.
            have hstep : measureStep h q day =
                ((some (ds ++ [day]), h.maxDict ++ [(day, q)]), none) := by
              unfold measureStep
              rw [hds]
              simp only [hlast]
              rw [if_neg hdc, if_pos hcd]
              unfold addDay popOldest
              rw [hlen]
              simp only [if_neg hfull, dictSet_of_not_mem q hdaynot]
            obtain ⟨m, hm⟩ := listMax_ne_none
              (by simp : ((h.maxDict ++ [(day, q)]).map Prod.snd) ≠ [])
            refine ⟨_, addMeasurement_of_step hstep hm, hlen, by simpa using hm.symm,
              Or.inr ⟨ds ++ [day], rfl, by simp, ?_, ?_, by simp [hkeys]⟩⟩
            · exact List.pairwise_append.mpr ⟨hsort, List.sorted_singleton day,
                fun e he d hd => by
                  rw [List.mem_singleton.mp hd]
                  exact hall e he⟩
            · simp only [List.length_append, List.length_singleton]
              omega
        · -- An old measurement: warn, recompute `max`, change nothing.
          have hstep : measureStep h q day = ((some ds, h.maxDict), none) := by
            unfold measureStep
            rw [hds]
            simp only [hlast]
            rw [if_neg hdc, if_neg hcd]
          obtain ⟨m, hm⟩ := listMax_ne_none (mapsnd_ne_nil hkeys hne)
          exact ⟨_, addMeasurement_of_step hstep hm,
            hlen, by simpa using hm.symm, Or.inr ⟨ds, rfl, hne, hsort, hlenle, hkeys⟩⟩

/-- `runHistory` on a positive capacity never raises and always yields a
well-formed history. -/
theorem runHistory_wf (N : Nat) (hN : 0 < N) (ms : List (PyValue × Nat)) :
    ∃ h, runHistory N ms = (h, none) ∧ histWF N h := by
  induction ms using List.reverseRecOn with
  | nil => exact ⟨DailyHistory.init N, rfl, histWF_init N⟩
  | append_singleton ms m ih =>
    obtain ⟨h, hrun, hw⟩ := ih
    obtain ⟨h', hadd, hw'⟩ := addMeasurement_wf hN hw m.1 m.2
    refine ⟨h', ?_, hw'⟩
    unfold runHistory
    rw [List.foldl_append]
    unfold runHistory at hrun
    rw [hrun]
    simpa using hadd

theorem runHistory_append_one (N : Nat) (ms : List (PyValue × Nat)) (m : PyValue × Nat)
    {h : DailyHistory} (hrun : runHistory N ms = (h, none)) :
    runHistory N (ms ++ [m]) = h.addMeasurement m.1 m.2 := by
  unfold runHistory
  rw [List.foldl_append]
  unfold runHistory at hrun
  rw [hrun]
  rfl

theorem numDays_append_num (ms : List (PyValue × Nat)) (q : ℚ) (d : Nat) :
    numDays (ms ++ [(PyValue.num q, d)]) = numDays ms ++ [d] := by
  simp [numDays]

theorem numDays_append_nonNum (ms : List (PyValue × Nat)) (d : Nat) :
    numDays (ms ++ [(PyValue.nonNum, d)]) = numDays ms := by
  simp [numDays]

theorem valuesAt_append_num_same (ms : List (PyValue × Nat)) (q : ℚ) (d : Nat) :
    valuesAt (ms ++ [(PyValue.num q, d)]) d = valuesAt ms d ++ [q] := by
  simp [valuesAt]

theorem valuesAt_append_num_other (ms : List (PyValue × Nat)) (q : ℚ) {d e : Nat}
    (h : e ≠ d) : valuesAt (ms ++ [(PyValue.num q, d)]) e = valuesAt ms e := by
  simp [valuesAt, Ne.symm h]

theorem valuesAt_append_nonNum (ms : List (PyValue × Nat)) (d e : Nat) :
    valuesAt (ms ++ [(PyValue.nonNum, d)]) e = valuesAt ms e := by
  simp [valuesAt]

theorem valuesAt_nil_of_not_mem {ms : List (PyValue × Nat)} {d : Nat}
    (h : d ∉ numDays ms) : valuesAt ms d = [] := by
  rw [valuesAt, List.filterMap_eq_nil_iff]
  intro m hm
  cases hv : m.1 with
  | nonNum => rfl
  | num q =>
    simp only
    rw [if_neg]
    intro hd
    exact h (List.mem_filterMap.mpr ⟨m, hm, by rw [hv, hd]⟩)

theorem distinctDays_concat (l : List Nat) (d : Nat) :
    distinctDays (l ++ [d]) = snocDay (distinctDays l) d := by
  simp [distinctDays, List.foldl_append]

theorem getLast?_distinctDays (l : List Nat) :
    (distinctDays l).getLast? = l.getLast? := by
  induction l using List.reverseRecOn with
  | nil => rfl
  | append_singleton l d ih =>
    rw [distinctDays_concat, snocDay, List.getLast?_concat]
    by_cases hd : (distinctDays l).getLast? = some d
    · rw [if_pos hd, hd]
    · rw [if_neg hd, List.getLast?_concat]

theorem distinctDays_ne_nil {l : List Nat} (h : l ≠ []) : distinctDays l ≠ [] := by
  intro hnil
  have h1 := getLast?_distinctDays l
  rw [hnil] at h1
  simp only [List.getLast?_nil] at h1
  exact h (List.getLast?_eq_none_iff.mp h1.symm)

theorem mem_of_mem_distinctDays {l : List Nat} {e : Nat}
    (h : e ∈ distinctDays l) : e ∈ l := by
  induction l using List.reverseRecOn with
  | nil => simp [distinctDays] at h
  | append_singleton l d ih =>
    rw [distinctDays_concat, snocDay] at h
    by_cases hd : (distinctDays l).getLast? = some d
    · rw [if_pos hd] at h
      exact List.mem_append_left _ (ih h)
    · rw [if_neg hd] at h
      rcases List.mem_append.mp h with h1 | h1
      · exact List.mem_append_left _ (ih h1)
      · exact List.mem_append_right _ h1

theorem lastN_of_le {N : Nat} {l : List Nat} (h : l.length ≤ N) : lastN N l = l := by
  rw [lastN, Nat.sub_eq_zero_of_le h, List.drop_zero]

theorem lastN_length_le (N : Nat) (l : List Nat) : (lastN N l).length ≤ N := by
  rw [lastN, List.length_drop]
  omega

theorem lastN_ne_nil {N : Nat} {l : List Nat} (hN : 0 < N) (h : l ≠ []) :
    lastN N l ≠ [] := by
  apply List.ne_nil_of_length_pos
  rw [lastN, List.length_drop]
  have := List.length_pos.mpr h
  omega

theorem mem_of_mem_lastN {N : Nat} {l : List Nat} {e : Nat} (h : e ∈ lastN N l) : e ∈ l :=
  List.mem_of_mem_drop h

theorem getLast?_lastN {N : Nat} {l : List Nat} (hN : 0 < N) (h : l ≠ []) :
    (lastN N l).getLast? = l.getLast? := by
  have hdec : l.take (l.length - N) ++ lastN N l = l := List.take_append_drop _ l
  conv_rhs => rw [← hdec]
  rw [List.getLast?_append_of_ne_nil _ (lastN_ne_nil hN h)]

theorem lastN_concat_of_lt {N : Nat} {l : List Nat} (h : l.length < N) (d : Nat) :
    lastN N (l ++ [d]) = l ++ [d] := by
  apply lastN_of_le
  rw [List.length_append, List.length_singleton]
  omega

theorem lastN_concat_of_ge {N : Nat} {l : List Nat} (hN : 0 < N) (h : N ≤ l.length)
    (d : Nat) : lastN N (l ++ [d]) = (lastN N l).tail ++ [d] := by
  rw [lastN, lastN, List.length_append, List.length_singleton]
  rw [List.drop_append_of_le_length (by omega)]
  rw [← List.drop_one, List.drop_drop]
  congr 2
  omega

/-! Closed forms for each branch of `measureStep`, used to relate a run
of the history to its trace-level specification. -/

theorem measureStep_first {h : DailyHistory} (q : ℚ) (day : Nat) (hN : 0 < h.maxLength)
    (hdn : h.days = none) (hmd : h.maxDict = []) :
    measureStep h q day = ((some [day], [(day, q)]), none) := by
  unfold measureStep
  rw [hdn, hmd]
  unfold addDay popOldest
  rw [if_neg (by simp; omega)]
  simp [dictSet]

theorem measureStep_same {h : DailyHistory} {ds : List Nat} (q : ℚ) {day : Nat} {old : ℚ}
    (hds : h.days = some ds) (hne : ds ≠ []) (hdc : day = ds.getLast hne)
    (hold : dictGet h.maxDict day = some old) :
    measureStep h q day = ((some ds, dictSet h.maxDict day (Max.max q old)), none) := by
  unfold measureStep
  rw [hds]
  simp only [List.getLast?_eq_getLast ds hne]
  rw [if_pos hdc]
  simp only [hold]

theorem measureStep_newday {h : DailyHistory} {ds : List Nat} (q : ℚ) {day : Nat}
    (hds : h.days = some ds) (hne : ds ≠ []) (hdc : ¬ day = ds.getLast hne)
    (hcd : ds.getLast hne < day) (hfull : ¬ ds.length = h.maxLength)
    (hdaynot : day ∉ h.maxDict.map Prod.fst) :
    measureStep h q day = ((some (ds ++ [day]), h.maxDict ++ [(day, q)]), none) := by
  unfold measureStep
  rw [hds]
  simp only [List.getLast?_eq_getLast ds hne]
  rw [if_neg hdc, if_pos hcd]
  unfold addDay popOldest
  simp only [if_neg hfull, dictSet_of_not_mem q hdaynot]

theorem measureStep_evict {h : DailyHistory} {o : Nat} {rest : List Nat} (q : ℚ) {day : Nat}
    (hds : h.days = some (o :: rest))
    (hdc : ¬ day = (o :: rest).getLast (List.cons_ne_nil o rest))
    (hcd : (o :: rest).getLast (List.cons_ne_nil o rest) < day)
    (hfull : (o :: rest).length = h.maxLength)
    (hget : (dictGet h.maxDict o).isSome = true)
    (hdaynotT : day ∉ (dictDel h.maxDict o).map Prod.fst) :
    measureStep h q day =
      ((some (rest ++ [day]), dictDel h.maxDict o ++ [(day, q)]), none) := by
  unfold measureStep
  rw [hds]
  simp only [List.getLast?_eq_getLast (o :: rest) (List.cons_ne_nil o rest)]
  rw [if_neg hdc, if_pos hcd]
  unfold addDay popOldest
  simp only [if_pos hfull, hget, eq_self_iff_true, if_true,
    dictSet_of_not_mem q hdaynotT]

/-- In a `(· ≤ ·)`-sorted list every element is at most the last one. -/
theorem sortedLE_le_getLast {ds : List Nat} {c e : Nat} (hs : ds.Sorted (· ≤ ·))
    (hc : ds.getLast? = some c) (he : e ∈ ds) : e ≤ c := by
  have hne : ds ≠ [] := by
    intro h
    subst h
    simp at hc
  have hdec : ds.dropLast ++ [ds.getLast hne] = ds := List.dropLast_append_getLast hne
  have hceq : ds.getLast hne = c := by
    have h1 := List.getLast?_eq_getLast ds hne
    rw [h1] at hc
    exact Option.some.injEq _ _ ▸ hc.symm ▸ rfl
  rw [← hdec] at he hs
  rcases List.mem_append.mp he with hd | hl
  · have := (List.pairwise_append.mp hs).2.2 e hd (ds.getLast hne) (by simp)
    rw [hceq] at this
    exact this
  · simp only [List.mem_singleton] at hl
    rw [hl, hceq]

/-- Full characterization of a run of the history over a trace fed in
non-decreasing day order: the deque holds exactly the most recent (at
most) `N` distinct numeric-measurement days, and each dictionary entry is
the maximum of the values fed on its day. -/
theorem runHistory_sorted_spec (N : Nat) (hN : 0 < N) (ms : List (PyValue × Nat))
    (hs : (numDays ms).Sorted (· ≤ ·)) :
    ∃ h, runHistory N ms = (h, none) ∧ histWF N h ∧
      h.days = (if numDays ms = [] then none else some (retainedSpec N ms)) ∧
      h.maxDict.map Prod.fst = retainedSpec N ms ∧
      (∀ p ∈ h.maxDict, listMax (valuesAt ms p.1) = some p.2) := by
  induction ms using List.reverseRecOn with
  | nil =>
    refine ⟨DailyHistory.init N, rfl, histWF_init N, ?_, ?_, ?_⟩
    · simp [numDays, DailyHistory.init]
    · simp [retainedSpec, distinctDays, lastN, numDays, DailyHistory.init]
    · intro p hp
      simp [DailyHistory.init] at hp
  | append_singleton ms m ih =>
    obtain ⟨mv, d0⟩ := m
    cases mv with
    | nonNum =>
      have hs' : (numDays ms).Sorted (· ≤ ·) := by
        rwa [numDays_append_nonNum] at hs
      obtain ⟨h, hrun, hw, hdays, hkeys, hvals⟩ := ih hs'
      refine ⟨h, ?_, hw, ?_, ?_, ?_⟩
      · rw [runHistory_append_one N ms _ hrun]
        rfl
      · rwa [numDays_append_nonNum, retainedSpec, numDays_append_nonNum, ← retainedSpec]
      · rwa [retainedSpec, numDays_append_nonNum, ← retainedSpec]
      · intro p hp
        rw [valuesAt_append_nonNum]
        exact hvals p hp
    | num q =>
      have hnd2 : numDays (ms ++ [(PyValue.num q, d0)]) = numDays ms ++ [d0] :=
        numDays_append_num ms q d0
      rw [hnd2] at hs
      have hs' : (numDays ms).Sorted (· ≤ ·) := (List.pairwise_append.mp hs).1
      have hle : ∀ e ∈ numDays ms, e ≤ d0 := fun e he =>
        (List.pairwise_append.mp hs).2.2 e he d0 (List.mem_singleton_self d0)
      obtain ⟨h, hrun, hw, hdays, hkeys, hvals⟩ := ih hs'
      obtain ⟨hlen, hmax, hwcases⟩ := hw
      have hNh : 0 < h.maxLength := by rw [hlen]; exact hN
      have hne2 : numDays ms ++ [d0] ≠ [] := by simp
      by_cases hnil : numDays ms = []
      · -- First numeric measurement ever: the first day opens.
        rw [if_pos hnil] at hdays
        have hrs0 : retainedSpec N ms = [] := by
          rw [retainedSpec, hnil]
          simp [distinctDays, lastN]
        have hmdnil : h.maxDict = [] :=
          List.map_eq_nil_iff.mp (by rw [hkeys, hrs0])
        have hstep := measureStep_first q d0 hNh hdays hmdnil
        have hm1 : listMax (([(d0, q)] : List (Nat × ℚ)).map Prod.snd) = some q := by
          simp [listMax]
        have hdd : distinctDays [d0] = [d0] := by
          simp [distinctDays, snocDay]
        have hrs' : retainedSpec N (ms ++ [(PyValue.num q, d0)]) = [d0] := by
          rw [retainedSpec, hnd2, hnil, List.nil_append, hdd]
          exact lastN_of_le (by simpa using hN)
        refine ⟨{ h with days := some [d0], maxDict := [(d0, q)], max := some q },
          by rw [runHistory_append_one N ms _ hrun]
             exact addMeasurement_of_step hstep hm1,
          ⟨hlen, by simpa using hm1.symm,
            Or.inr ⟨[d0], rfl, by simp, List.sorted_singleton d0, by simpa using hN, by simp⟩⟩,
          ?_, ?_, ?_⟩
        · rw [hnd2, if_neg hne2, hrs']
        · rw [hrs']
          simp
        · intro p hp
          simp only [List.mem_singleton] at hp
          subst hp
          rw [valuesAt_append_num_same,
            valuesAt_nil_of_not_mem (by rw [hnil]; exact List.not_mem_nil d0)]
          simp [listMax]
      · -- Later numeric measurement: compare with the current day.
        rw [if_neg hnil] at hdays
        have hDne : distinctDays (numDays ms) ≠ [] := distinctDays_ne_nil hnil
        have hRne : retainedSpec N ms ≠ [] := lastN_ne_nil hN hDne
        have hc := (numDays ms).getLast hnil
        have hclast : (numDays ms).getLast? = some ((numDays ms).getLast hnil) :=
          List.getLast?_eq_getLast _ hnil
        have hRlast : (retainedSpec N ms).getLast? = some ((numDays ms).getLast hnil) := by
          rw [retainedSpec, getLast?_lastN hN hDne, getLast?_distinctDays]
          exact hclast
        have hgR : (retainedSpec N ms).getLast hRne = (numDays ms).getLast hnil :=
          Option.some.inj ((List.getLast?_eq_getLast _ hRne).symm.trans hRlast)
        have hcle : (numDays ms).getLast hnil ≤ d0 :=
          hle _ (List.getLast_mem hnil)
        -- the histWF day list is the retained-day list
        have hsortR : (retainedSpec N ms).Sorted (· < ·) := by
          rcases hwcases with ⟨hdn, _⟩ | ⟨ds, hds2, _, hsort, _, _⟩
          · rw [hdays] at hdn
            exact absurd hdn (by simp)
          · rw [hdays] at hds2
            exact (Option.some.inj hds2) ▸ hsort
        have hlenleR : (retainedSpec N ms).length ≤ N := lastN_length_le N _
        have hndR : (retainedSpec N ms).Nodup := hsortR.imp (fun hab => ne_of_lt hab)
        have hmemle : ∀ e ∈ retainedSpec N ms, e ≤ (numDays ms).getLast hnil := fun e he =>
          sortedLE_le_getLast hs' hclast
            (mem_of_mem_distinctDays (mem_of_mem_lastN he))
        by_cases hdc : d0 = (retainedSpec N ms).getLast hRne
        · -- Same day as the current one: aggregate in place with `max`.
          have hd0mem : d0 ∈ h.maxDict.map Prod.fst := by
            rw [hkeys, hdc]
            exact List.getLast_mem hRne
          obtain ⟨p1, hp1mem, hp1fst⟩ := List.mem_map.mp hd0mem
          have hold : dictGet h.maxDict d0 = some p1.2 := by
            have hpe : ((d0, p1.2) : Nat × ℚ) ∈ h.maxDict := by
              rw [← hp1fst]
              exact hp1mem
            exact dictGet_of_mem_nodup (by rw [hkeys]; exact hndR) hpe
          have hstep := measureStep_same q hdays hRne hdc hold
          have hkeys' :
              (dictSet h.maxDict d0 (Max.max q p1.2)).map Prod.fst = retainedSpec N ms :=
            (dictSet_map_fst_of_mem _ hd0mem).trans hkeys
          obtain ⟨m2, hm2⟩ := listMax_ne_none (mapsnd_ne_nil hkeys' hRne)
          have hsnoc : snocDay (distinctDays (numDays ms)) d0 = distinctDays (numDays ms) := by
            rw [snocDay, if_pos]
            rw [getLast?_distinctDays, hclast, hdc, hgR]
          have hrs' : retainedSpec N (ms ++ [(PyValue.num q, d0)]) = retainedSpec N ms := by
            rw [retainedSpec, hnd2, distinctDays_concat, hsnoc, ← retainedSpec]
          refine ⟨{ h with
              days := some (retainedSpec N ms)
              maxDict := dictSet h.maxDict d0 (Max.max q p1.2)
              max := some m2 },
            by rw [runHistory_append_one N ms _ hrun]
               exact addMeasurement_of_step hstep hm2,
            ⟨hlen, by simpa using hm2.symm,
              Or.inr ⟨retainedSpec N ms, rfl, hRne, hsortR, hlenleR, hkeys'⟩⟩,
            ?_, ?_, ?_⟩
          · rw [hnd2, if_neg hne2, hrs']
          · rw [hrs']
            exact hkeys'
          · intro p hp
            rcases mem_dictSet hp with hpd | ⟨hpmem, hpne⟩
            · subst hpd
              rw [valuesAt_append_num_same, listMax_concat]
              have hv1 := hvals p1 hp1mem
              rw [hp1fst] at hv1
              rw [hv1]
              simp [max_comm]
            · rw [valuesAt_append_num_other ms q hpne]
              exact hvals p hpmem
        · -- A strictly newer day opens.
          have hcd : (retainedSpec N ms).getLast hRne < d0 := by
            rcases lt_or_eq_of_le hcle with hlt | heq
            · rw [hgR]
              exact hlt
            · exact absurd (hgR.trans heq).symm hdc
          have hd0notnum : d0 ∉ numDays ms := by
            intro hmem
            have h1 := sortedLE_le_getLast hs' hclast hmem
            rw [← hgR] at h1
            omega
          have hd0notR : d0 ∉ retainedSpec N ms := fun hmem => by
            have h1 := hmemle d0 hmem
            rw [← hgR] at h1
            omega
          have hdaynot : d0 ∉ h.maxDict.map Prod.fst := by
            rw [hkeys]
            exact hd0notR
          have hsnoc : snocDay (distinctDays (numDays ms)) d0 =
              distinctDays (numDays ms) ++ [d0] := by
            rw [snocDay, if_neg]
            rw [getLast?_distinctDays, hclast]
            intro hh
            rw [← hgR] at hh
            have := Option.some.inj hh
            exact hdc this.symm
          by_cases hfull : (retainedSpec N ms).length = N
          · -- The deque is full: the oldest day is evicted.
            obtain ⟨o, rest, hor⟩ : ∃ o rest, retainedSpec N ms = o :: rest := by
              cases hR0 : retainedSpec N ms with
              | nil => exact absurd hR0 hRne
              | cons o rest => exact ⟨o, rest, rfl⟩
            obtain ⟨p0, mdT, hmdeq⟩ : ∃ p0 mdT, h.maxDict = p0 :: mdT := by
              cases hmd0 : h.maxDict with
              | nil => exact absurd (by rw [hmd0] at hkeys; exact hkeys.symm) hRne
              | cons p0 mdT => exact ⟨p0, mdT, rfl⟩
            have hkor : h.maxDict.map Prod.fst = o :: rest := by rw [hkeys, hor]
            rw [hmdeq] at hkor
            simp only [List.map_cons, List.cons.injEq] at hkor
            obtain ⟨hp0, hmdT⟩ := hkor
            have horest : o ∉ rest := by
              have := hndR
              rw [hor] at this
              exact (List.nodup_cons.mp this).1
            have hdel : dictDel h.maxDict o = mdT := by
              rw [hmdeq, ← hp0]
              have hpe : p0 = (p0.1, p0.2) := rfl
              rw [hpe]
              exact dictDel_cons_head (by rw [hmdT]; exact (hp0 ▸ horest))
            have hget : (dictGet h.maxDict o).isSome = true := by
              rw [dictGet_isSome, hmdeq, List.map_cons, hp0]
              exact List.mem_cons_self _ _
            have hdaynotT : d0 ∉ (dictDel h.maxDict o).map Prod.fst := by
              rw [hdel, hmdT]
              intro hmem
              exact hd0notR (by rw [hor]; exact List.mem_cons_of_mem o hmem)
            have hdays' : h.days = some (o :: rest) := by rw [hdays, hor]
            have hgor : (o :: rest).getLast (List.cons_ne_nil o rest) =
                (retainedSpec N ms).getLast hRne := by
              congr 1
              · exact hor.symm
            have hstep := measureStep_evict q hdays' (by rw [hgor]; exact hdc)
              (by rw [hgor]; exact hcd) (by rw [← hor, hfull, hlen]) hget hdaynotT
            rw [hdel] at hstep
            obtain ⟨m2, hm2⟩ := listMax_ne_none
              (by simp : ((mdT ++ [(d0, q)]).map Prod.snd) ≠ [])
            have hDge : N ≤ (distinctDays (numDays ms)).length := by
              by_contra hlt
              have := lastN_of_le (le_of_lt (Nat.lt_of_not_le hlt))
              rw [retainedSpec] at hfull
              rw [this] at hfull
              omega
            have hrs' : retainedSpec N (ms ++ [(PyValue.num q, d0)]) = rest ++ [d0] := by
              rw [retainedSpec, hnd2, distinctDays_concat, hsnoc,
                lastN_concat_of_ge hN hDge, ← retainedSpec, hor]
              rfl
            have hsort' : (rest ++ [d0]).Sorted (· < ·) := by
              refine List.pairwise_append.mpr ⟨?_, List.sorted_singleton d0, ?_⟩
              · have := hsortR
                rw [hor] at this
                exact this.of_cons
              · intro e he d hd
                rw [List.mem_singleton.mp hd]
                have h1 : e ≤ (retainedSpec N ms).getLast hRne := by
                  rw [hgR]
                  exact hmemle e (by rw [hor]; exact List.mem_cons_of_mem o he)
                omega
            refine ⟨{ h with
                days := some (rest ++ [d0])
                maxDict := mdT ++ [(d0, q)]
                max := some m2 },
              by rw [runHistory_append_one N ms _ hrun]
                 exact addMeasurement_of_step hstep hm2,
              ⟨hlen, by simpa using hm2.symm,
                Or.inr ⟨rest ++ [d0], rfl, by simp, hsort', ?_, by simp [hmdT]⟩⟩,
              ?_, ?_, ?_⟩
            · have hlc : (o :: rest).length = N := by rw [← hor]; exact hfull
              simp only [List.length_cons] at hlc
              simp only [List.length_append, List.length_singleton]
              omega
            · rw [hnd2, if_neg hne2, hrs']
            · rw [hrs']
              simp [hmdT]
            · intro p hp
              rcases List.mem_append.mp hp with hpT | hpd
              · have hpfst : p.1 ∈ rest := by rw [← hmdT]; exact List.mem_map_of_mem _ hpT
                have hpne : p.1 ≠ d0 := by
                  intro hh
                  exact hd0notR (by rw [hor, ← hh]; exact List.mem_cons_of_mem o hpfst)
                rw [valuesAt_append_num_other ms q hpne]
                exact hvals p (by rw [hmdeq]; exact List.mem_cons_of_mem p0 hpT)
              · simp only [List.mem_singleton] at hpd
                subst hpd
                rw [valuesAt_append_num_same, valuesAt_nil_of_not_mem hd0notnum]
                simp [listMax]
          · -- The deque is not yet full: the new day is appended.
            have hstep := measureStep_newday q hdays hRne hdc hcd
              (by rw [hlen]; exact hfull) hdaynot
            obtain ⟨m2, hm2⟩ := listMax_ne_none
              (by simp : ((h.maxDict ++ [(d0, q)]).map Prod.snd) ≠ [])
            have hDlt : (distinctDays (numDays ms)).length < N := by
              by_contra hge
              have h1 := lastN_concat_of_ge hN (Nat.le_of_not_lt hge) d0
              rw [retainedSpec] at hfull
              have h2 : (lastN N (distinctDays (numDays ms))).length = N := by
                rw [lastN, List.length_drop]
                omega
              exact hfull h2
            have hRD : retainedSpec N ms = distinctDays (numDays ms) := by
              rw [retainedSpec]
              exact lastN_of_le (le_of_lt hDlt)
            have hrs' : retainedSpec N (ms ++ [(PyValue.num q, d0)]) =
                retainedSpec N ms ++ [d0] := by
              rw [retainedSpec, hnd2, distinctDays_concat, hsnoc,
                lastN_concat_of_lt hDlt, ← hRD]
            have hsort' : (retainedSpec N ms ++ [d0]).Sorted (· < ·) := by
              refine List.pairwise_append.mpr ⟨hsortR, List.sorted_singleton d0, ?_⟩
              intro e he d hd
              rw [List.mem_singleton.mp hd]
              have h1 : e ≤ (retainedSpec N ms).getLast hRne := by
                rw [hgR]
                exact hmemle e he
              omega
            refine ⟨{ h with
                days := some (retainedSpec N ms ++ [d0])
                maxDict := h.maxDict ++ [(d0, q)]
                max := some m2 },
              by rw [runHistory_append_one N ms _ hrun]
                 exact addMeasurement_of_step hstep hm2,
              ⟨hlen, by simpa using hm2.symm,
                Or.inr ⟨retainedSpec N ms ++ [d0], rfl, by simp, hsort', ?_, by simp [hkeys]⟩⟩,
              ?_, ?_, ?_⟩
            · have hlc : (retainedSpec N ms).length < N := by
                rw [hRD]
                exact hDlt
              simp only [List.length_append, List.length_singleton]
              omega
            · rw [hnd2, if_neg hne2, hrs']
            · rw [hrs']
              simp [hkeys]
            · intro p hp
              rcases List.mem_append.mp hp with hpT | hpd
              · have hpfst : p.1 ∈ retainedSpec N ms := by
                  rw [← hkeys]
                  exact List.mem_map_of_mem _ hpT
                have hpne : p.1 ≠ d0 := fun hh => hd0notR (hh ▸ hpfst)
                rw [valuesAt_append_num_other ms q hpne]
                exact hvals p hpT
              · simp only [List.mem_singleton] at hpd
                subst hpd
                rw [valuesAt_append_num_same, valuesAt_nil_of_not_mem hd0notnum]
                simp [listMax]

/-! ### Properties of the threshold checks -/

theorem checkMin_eq_spec (r : Reading) (minB : Option ℚ) (histMax : Option ℚ) (q v : ℚ)
    (heff : (if r = Reading.light_lux then histMax else some q) = some v) :
    checkMin r minB histMax q =
      some (if (match minB with
                | some m => decide (m ≠ 0) && decide (v < m)
                | none => false)
            then some (r.name ++ " low") else none) := by
  cases minB with
  | none => simp [checkMin, truthyQ, heff]
  | some m =>
    by_cases hm : m = 0
    · subst hm
      simp [checkMin, truthyQ, heff]
    · by_cases hlt : v < m
      · simp [checkMin, truthyQ, heff, hm, hlt]
      · simp [checkMin, truthyQ, heff, hm, hlt]

theorem checkMax_eq_spec (r : Reading) (maxB : Option ℚ) (s : ℚ) :
    checkMax r maxB s =
      (if (match maxB with
           | some m => decide (m ≠ 0) && decide (m < s)
           | none => false)
       then some (r.name ++ " high") else none) := by
  cases maxB with
  | none => simp [checkMax, truthyQ]
  | some m =>
    by_cases hm : m = 0
    · subst hm
      simp [checkMax, truthyQ]
    · by_cases hlt : m < s
      · simp [checkMax, truthyQ, hm, hlt]
      · simp [checkMax, truthyQ, hm, hlt]

theorem checkMin_some_shape {r : Reading} {minB histMax : Option ℚ} {q : ℚ} {s : String}
    (h : checkMin r minB histMax q = some (some s)) : s = r.name ++ " low" := by
  simp only [checkMin] at h
  by_cases ht : truthyQ minB = true
  · rw [if_pos ht] at h
    cases heff : (if r = Reading.light_lux then histMax else some q) with
    | none =>
      rw [heff] at h
      simp at h
    | some s0 =>
      rw [heff] at h
      simp only [Option.some.injEq] at h
      by_cases hc : s0 < minB.getD 0
      · rw [if_pos hc] at h
        exact (Option.some.inj h).symm
      · rw [if_neg hc] at h
        simp at h
  · rw [if_neg ht] at h
    simp at h

theorem checkMax_some_shape {r : Reading} {maxB : Option ℚ} {q : ℚ} {s : String}
    (h : checkMax r maxB q = some s) : s = r.name ++ " high" := by
  simp only [checkMax] at h
  by_cases ht : truthyQ maxB = true
  · rw [if_pos ht] at h
    by_cases hc : maxB.getD 0 < q
    · rw [if_pos hc] at h
      exact (Option.some.inj h).symm
    · rw [if_neg hc] at h
      simp at h
  · rw [if_neg ht] at h
    simp at h

/-- Under the stored-state invariant, every problem string produced by
the per-category check is a low or high message. -/
theorem checkReading_shape {r : Reading} {rec : ReadingRec} {histMax : Option ℚ} {s : String}
    (hrec : rec.state = RState.null ∨ ∃ q, rec.state = RState.num q)
    (h : checkReading r rec histMax = some (some s)) :
    s = r.name ++ " low" ∨ s = r.name ++ " high" := by
  rcases hrec with hnull | ⟨q, hnum⟩
  · simp only [checkReading, hnull] at h
    simp at h
  · simp only [checkReading, hnum] at h
    cases hcm : checkMin r rec.minimum histMax q with
    | none =>
      rw [hcm] at h
      simp at h
    | some o =>
      rw [hcm] at h
      cases o with
      | some s' =>
        simp only [Option.some.injEq] at h
        left
        rw [← h]
        exact checkMin_some_shape hcm
      | none =>
        simp only [Option.some.injEq] at h
        right
        rw [← checkMax_some_shape h]

theorem collectProblems_eq_filterMap {rds : List (Reading × ReadingRec)}
    {histMax : Option ℚ} {ps : List String}
    (h : collectProblems rds histMax = some ps) :
    ps = rds.filterMap (fun pr => (checkReading pr.1 pr.2 histMax).bind id) := by
  induction rds generalizing ps with
  | nil =>
    simp only [collectProblems, Option.some.injEq] at h
    simp [← h]
  | cons pr rest ih =>
    rw [collectProblems] at h
    cases hcr : checkReading pr.1 pr.2 histMax with
    | none =>
      rw [hcr] at h
      exact absurd h (by simp)
    | some o =>
      rw [hcr] at h
      cases hrest : collectProblems rest histMax with
      | none =>
        rw [hrest] at h
        exact absurd h (by simp)
      | some ps' =>
        rw [hrest] at h
        simp only [Option.some.injEq] at h
        subst h
        rw [List.filterMap_cons]
        cases o with
        | none => simp [hcr, ih hrest]
        | some s => simp [hcr, ih hrest]

/-- Under the stored-state invariant every collected problem string is a
low or high message of some category. -/
theorem collectProblems_shape {rds : List (Reading × ReadingRec)} {histMax : Option ℚ}
    {ps : List String} (hrec : recsNullOrNum rds)
    (h : collectProblems rds histMax = some ps) :
    ∀ s ∈ ps, ∃ r : Reading, s = r.name ++ " low" ∨ s = r.name ++ " high" := by
  induction rds generalizing ps with
  | nil =>
    simp only [collectProblems, Option.some.injEq] at h
    subst h
    intro s hs
    simp at hs
  | cons pr rest ih =>
    rw [collectProblems] at h
    cases hcr : checkReading pr.1 pr.2 histMax with
    | none =>
      rw [hcr] at h
      exact absurd h (by simp)
    | some o =>
      rw [hcr] at h
      cases hrest : collectProblems rest histMax with
      | none =>
        rw [hrest] at h
        exact absurd h (by simp)
      | some ps' =>
        rw [hrest] at h
        simp only [Option.some.injEq] at h
        subst h
        have hrec' : recsNullOrNum rest := fun x hx => hrec x (List.mem_cons_of_mem pr hx)
        cases o with
        | none => exact ih hrec' hrest
        | some s0 =>
          intro s hs
          rcases List.mem_cons.mp hs with rfl | hs'
          · exact ⟨pr.1, checkReading_shape (hrec pr (List.mem_cons_self pr rest)) hcr⟩
          · exact ih hrec' hrest s hs'

/-- No low or high problem string mentions "unavailable". -/
theorem lowhigh_not_unavailable (r : Reading) :
    pyIn "unavailable" (r.name ++ " low") = false ∧
    pyIn "unavailable" (r.name ++ " high") = false := by
  cases r <;> exact ⟨by decide, by decide⟩

theorem recsNullOrNum_dictSet {rds : List (Reading × ReadingRec)} {r : Reading}
    {rec : ReadingRec} (hrds : recsNullOrNum rds)
    (hrec : rec.state = RState.null ∨ ∃ q, rec.state = RState.num q) :
    recsNullOrNum (dictSet rds r rec) := by
  intro pr hpr
  rcases mem_dictSet hpr with rfl | ⟨hmem, _⟩
  · exact hrec
  · exact hrds pr hmem

theorem plantInv_initStep (cfg : PlantCfg) (l : List (Reading × String)) (p : Plant) :
    recsNullOrNum p.readings →
    recsNullOrNum (l.foldl (initStep cfg) p).readings ∧
      (l.foldl (initStep cfg) p).state = p.state := by
  induction l generalizing p with
  | nil =>
    intro h
    exact ⟨h, rfl⟩
  | cons re t ih =>
    intro h
    rw [List.foldl_cons]
    have h1 : recsNullOrNum (initStep cfg p re).readings := by
      rw [initStep]
      exact recsNullOrNum_dictSet h (Or.inl rfl)
    obtain ⟨ha, hb⟩ := ih (initStep cfg p re) h1
    exact ⟨ha, hb.trans rfl⟩

theorem plantInv_init (cfg : PlantCfg) : plantInv (Plant.init cfg) := by
  obtain ⟨h1, h2⟩ := plantInv_initStep cfg cfg.staticSensors
    { sensors := [], readings := [], brightness := DailyHistory.init cfg.checkDays,
      state := none, problems := "none" }
    (by intro pr hpr; simp at hpr)
  refine ⟨h1, ?_⟩
  rw [Plant.init, h2]
  simp

theorem updateState_fields (p : Plant) :
    (updateState p).1.readings = p.readings ∧
    (updateState p).1.sensors = p.sensors ∧
    (updateState p).1.brightness = p.brightness := by
  unfold updateState
  cases hcp : collectProblems p.readings p.brightness.max with
  | none =>
    simp [hcp]
  | some ps =>
    simp only [hcp]
    by_cases hemp : ps.isEmpty = true
    · rw [if_pos hemp]
      simp
    · rw [if_neg hemp]
      simp

theorem updateState_not_unavailable {p : Plant} (hrec : recsNullOrNum p.readings)
    (hstate : p.state ≠ some "unavailable") :
    (updateState p).1.state ≠ some "unavailable" := by
  unfold updateState
  cases hcp : collectProblems p.readings p.brightness.max with
  | none =>
    simp only [hcp]
    exact hstate
  | some ps =>
    simp only [hcp]
    by_cases hemp : ps.isEmpty = true
    · rw [if_pos hemp]
      simp
    · rw [if_neg hemp]
      have hps : ps ≠ [] := by
        intro hh
        rw [hh] at hemp
        exact hemp rfl
      obtain ⟨s0, hs0⟩ : ∃ s0, s0 ∈ ps := by
        cases ps with
        | nil => exact absurd rfl hps
        | cons a t => exact ⟨a, List.mem_cons_self a t⟩
      obtain ⟨r, hlh⟩ := collectProblems_shape hrec hcp s0 hs0
      have hfalse : pyIn "unavailable" s0 = false := by
        rcases hlh with rfl | rfl
        · exact (lowhigh_not_unavailable r).1
        · exact (lowhigh_not_unavailable r).2
      have hall : ps.all (fun s => pyIn "unavailable" s) = false := by
        apply Bool.eq_false_iff.mpr
        intro htrue
        have hcontr := List.all_eq_true.mp htrue s0 hs0
        rw [hfalse] at hcontr
        exact Bool.noConfusion hcontr
      rw [hall]
      simp

/-- Every `readingRecKeys.any` sibling-health test passes (suppressing
the update) when none of the literal key names is an unavailable entity
in the registry. -/
theorem anyKeys_true {reg : String → Bool} (hreg : ∀ k ∈ readingRecKeys, reg k = false) :
    readingRecKeys.any (fun k => !(reg k)) = true := by
  have h1 := hreg "sensors" (by simp [readingRecKeys])
  simp [readingRecKeys, h1]

theorem associate_effects {cfg : PlantCfg} {p : Plant} {e : String} {r : Reading}
    {p1 : Plant} (h : associate cfg p e = some (r, p1)) :
    p1.state = p.state ∧ p1.problems = p.problems ∧ p1.brightness = p.brightness ∧
    dictGet p1.sensors e = some r ∧
    (∀ r' rec, dictGet p.readings r' = some rec →
      ∃ rec', dictGet p1.readings r' = some rec' ∧ rec'.state = rec.state) ∧
    (recsNullOrNum p.readings → recsNullOrNum p1.readings) := by
  rw [associate] at h
  cases hf : readingsOrder.find? (fun r => pyIn r.name e) with
  | none =>
    rw [hf] at h
    exact absurd h (by simp)
  | some r0 =>
    simp only [hf] at h
    cases hg : dictGet p.readings r0 with
    | some rec0 =>
      simp only [hg, Option.some.injEq, Prod.mk.injEq] at h
      obtain ⟨rfl, rfl⟩ := h
      refine ⟨rfl, rfl, rfl, dictGet_dictSet_self _ _ _, ?_, ?_⟩
      · intro r' rec hget
        by_cases hr' : r' = r0
        · subst hr'
          obtain rfl := Option.some.inj (hg.symm.trans hget)
          exact ⟨_, dictGet_dictSet_self _ _ _, rfl⟩
        · exact ⟨rec, by rw [dictGet_dictSet_ne _ _ hr']; exact hget, rfl⟩
      · intro hrn
        exact recsNullOrNum_dictSet hrn (hrn (r0, rec0) (mem_of_dictGet hg))
    | none =>
      simp only [hg, Option.some.injEq, Prod.mk.injEq] at h
      obtain ⟨rfl, rfl⟩ := h
      refine ⟨rfl, rfl, rfl, dictGet_dictSet_self _ _ _, ?_, ?_⟩
      · intro r' rec hget
        by_cases hr' : r' = r0
        · subst hr'
          rw [hget] at hg
          exact Option.noConfusion hg
        · exact ⟨rec, by rw [dictGet_dictSet_ne _ _ hr']; exact hget, rfl⟩
      · intro hrn
        exact recsNullOrNum_dictSet hrn (Or.inl rfl)

/-- A single `state_changed` call preserves the plant invariant, for an
arbitrary registry. -/
theorem stateChanged_inv {cfg : PlantCfg} {reg : String → Bool} {p : Plant}
    (hinv : plantInv p) (e : String) (ev : StateEvent) :
    plantInv (stateChanged cfg reg p e ev).1 := by
  obtain ⟨hrec, hstate⟩ := hinv
  have hassoc : ∀ r p1,
      (match dictGet p.sensors e with
       | some r => some (r, p)
       | none => associate cfg p e) = some (r, p1) →
      recsNullOrNum p1.readings ∧ p1.state ≠ some "unavailable" := by
    intro r p1 hres
    cases hcache : dictGet p.sensors e with
    | none =>
      rw [hcache] at hres
      obtain ⟨hst, _, _, _, _, hrn⟩ := associate_effects hres
      exact ⟨hrn hrec, by rw [hst]; exact hstate⟩
    | some r2 =>
      simp only [hcache, Option.some.injEq, Prod.mk.injEq] at hres
      obtain ⟨rfl, rfl⟩ := hres
      exact ⟨hrec, hstate⟩
  unfold stateChanged
  split
  · exact ⟨hrec, hstate⟩
  · rename_i rp r p1 hres
    obtain ⟨hrec1, hstate1⟩ := hassoc r p1 hres
    by_cases hunk : ev.state = SensorState.unknown
    · rw [if_pos hunk]
      exact ⟨hrec1, hstate1⟩
    · rw [if_neg hunk]
      by_cases hunav : ev.state = SensorState.unavailable
      · rw [if_pos hunav]
        cases hg : dictGet p1.readings r with
        | none =>
          simp only [hg]
          exact ⟨hrec1, hstate1⟩
        | some rec =>
          simp only [hg]
          by_cases hany : readingRecKeys.any (fun k => !(reg k)) = true
          · rw [if_pos hany]
            exact ⟨hrec1, hstate1⟩
          · rw [if_neg hany]
            exact ⟨hrec1, hstate1⟩
      · rw [if_neg hunav]
        cases hevs : ev.state with
        | unknown => exact absurd hevs hunk
        | unavailable => exact absurd hevs hunav
        | malformed => exact ⟨hrec1, hstate1⟩
        | num q0 =>
          cases hg : dictGet p1.readings r with
          | none =>
            simp only [hg]
            exact ⟨hrec1, hstate1⟩
          | some rec =>
            simp only [hg]
            have hrec2 : ∀ rec2 : ReadingRec,
                (∃ q, rec2.state = RState.num q) →
                recsNullOrNum (dictSet p1.readings r rec2) := fun rec2 hq =>
              recsNullOrNum_dictSet hrec1 (Or.inr hq)
            split
            · exact ⟨hrec2 _ ⟨_, rfl⟩, hstate1⟩
            · split
              · rename_i u hu
                refine ⟨?_, ?_⟩
                · rw [(updateState_fields _).1]
                  exact recsNullOrNum_dictSet (hrec2 _ ⟨_, rfl⟩) (Or.inr ⟨_, rfl⟩)
                · exact updateState_not_unavailable
                    (recsNullOrNum_dictSet (hrec2 _ ⟨_, rfl⟩) (Or.inr ⟨_, rfl⟩)) hstate1
              · refine ⟨?_, ?_⟩
                · rw [(updateState_fields _).1]
                  exact hrec2 _ ⟨_, rfl⟩
                · exact updateState_not_unavailable (hrec2 _ ⟨_, rfl⟩) hstate1

/-- With none of the record-key names registered as unavailable
entities, an "unavailable" update is ignored: state, problems,
brightness and every stored reading state are unchanged, and the
`float` conversion (`ValueError`) is never reached. -/
theorem stateChanged_unavailable {cfg : PlantCfg} {reg : String → Bool}
    (hreg : ∀ k ∈ readingRecKeys, reg k = false) (p : Plant) (e : String)
    (ev : StateEvent) (hev : ev.state = SensorState.unavailable) :
    (stateChanged cfg reg p e ev).1.state = p.state ∧
    (stateChanged cfg reg p e ev).1.problems = p.problems ∧
    (stateChanged cfg reg p e ev).1.brightness = p.brightness ∧
    (∀ r' rec, dictGet p.readings r' = some rec →
      ∃ rec', dictGet (stateChanged cfg reg p e ev).1.readings r' = some rec' ∧
        rec'.state = rec.state) ∧
    (stateChanged cfg reg p e ev).2 ≠ some PErr.value := by
  unfold stateChanged
  split
  · exact ⟨rfl, rfl, rfl, fun r' rec h => ⟨rec, h, rfl⟩, by simp⟩
  · rename_i rp r p1 hres
    have hfacts : p1.state = p.state ∧ p1.problems = p.problems ∧
        p1.brightness = p.brightness ∧
        (∀ r' rec, dictGet p.readings r' = some rec →
          ∃ rec', dictGet p1.readings r' = some rec' ∧ rec'.state = rec.state) := by
      cases hcache : dictGet p.sensors e with
      | none =>
        rw [hcache] at hres
        obtain ⟨h1, h2, h3, _, h5, _⟩ := associate_effects hres
        exact ⟨h1, h2, h3, h5⟩
      | some r2 =>
        simp only [hcache, Option.some.injEq, Prod.mk.injEq] at hres
        obtain ⟨rfl, rfl⟩ := hres
        exact ⟨rfl, rfl, rfl, fun r' rec h => ⟨rec, h, rfl⟩⟩
    obtain ⟨h1, h2, h3, h4⟩ := hfacts
    rw [if_neg (by rw [hev]; intro hh; exact SensorState.noConfusion hh)]
    rw [if_pos hev]
    cases hg : dictGet p1.readings r with
    | none =>
      simp only [hg]
      exact ⟨h1, h2, h3, h4, by simp⟩
    | some rec =>
      simp only [hg]
      rw [if_pos (anyKeys_true hreg)]
      exact ⟨h1, h2, h3, h4, by simp⟩

theorem runPlant_inv (cfg : PlantCfg) (reg : String → Bool)
    (evs : List (String × StateEvent)) : plantInv (runPlant cfg reg evs) := by
  induction evs using List.reverseRecOn with
  | nil => exact plantInv_init cfg
  | append_singleton evs ev ih =>
    rw [runPlant, List.foldl_append]
    rw [runPlant] at ih
    simp only [List.foldl_cons, List.foldl_nil]
    exact stateChanged_inv ih ev.1 ev.2

theorem runStep_nonNum (acc : DailyHistory × Option PErr) (d : Nat) :
    (match acc.2 with
     | some _ => acc
     | none => DailyHistory.addMeasurement acc.1 PyValue.nonNum d) = acc := by
  rcases acc with ⟨h1, e1⟩
  cases e1 <;> rfl

theorem find?_eq_some_split {α : Type} {p : α → Bool} {l : List α} {a : α}
    (h : l.find? p = some a) :
    p a = true ∧ ∃ l₁ l₂, l = l₁ ++ a :: l₂ ∧ ∀ x ∈ l₁, p x = false := by
  induction l with
  | nil => simp at h
  | cons x t ih =>
    by_cases hx : p x = true
    · rw [List.find?_cons_of_pos _ hx] at h
      obtain rfl := Option.some.inj h
      exact ⟨hx, [], t, rfl, by simp⟩
    · rw [List.find?_cons_of_neg _ hx] at h
      obtain ⟨hpa, l₁, l₂, heq, hall⟩ := ih h
      refine ⟨hpa, x :: l₁, l₂, by rw [heq]; rfl, ?_⟩
      intro y hy
      rcases List.mem_cons.mp hy with rfl | hyt
      · exact Bool.eq_false_iff.mpr hx
      · exact hall y hyt

/-! ### Claims -/

/-- C1 counterexample: with `max_days = 2` and the chronologically
sorted numeric feed (100 at day 1, 5 at day 10), the code keeps
`max = 100`, while the true maximum over the values whose day is within
the most recent 2 days of the latest day seen (day 10) is 5: eviction
counts distinct measured days, not calendar days. -/
theorem daily_history_window_cex :
    (0 : Nat) < 2 ∧
    (numDays [(PyValue.num 100, 1), (PyValue.num 5, 10)]).Sorted (· ≤ ·) ∧
    runHistory 2 [(PyValue.num 100, 1), (PyValue.num 5, 10)] =
      ({ maxLength := 2, days := some [1, 10], maxDict := [(1, 100), (10, 5)],
         max := some 100 }, none) ∧
    (numDays [(PyValue.num 100, 1), (PyValue.num 5, 10)]).getLast? = some 10 ∧
    listMax (windowVals 2 [(PyValue.num 100, 1), (PyValue.num 5, 10)]) = some 5 ∧
    some (100 : ℚ) ≠ some (5 : ℚ) := by
  refine ⟨by decide, by decide, by decide, by decide, by decide, by decide⟩

/-- C1 (amended): for every capacity `N > 0` and every trace fed in
non-decreasing day order, no call raises and after the whole trace
`max` equals the true maximum of all fed numeric values whose day is
among the most recent (at most) `N` distinct days carrying numeric
measurements — and `max` is null until a numeric sample is retained. -/
theorem daily_history_rolling_max (N : Nat) (hN : 0 < N) (ms : List (PyValue × Nat))
    (hs : (numDays ms).Sorted (· ≤ ·)) :
    ∃ h, runHistory N ms = (h, none) ∧
      h.max = listMax (retainedVals N ms) ∧
      (numDays ms = [] → h.max = none) := by
  obtain ⟨h, hrun, hw, hdays, hkeys, hvals⟩ := runHistory_sorted_spec N hN ms hs
  obtain ⟨hlen, hmax, _⟩ := hw
  refine ⟨h, hrun, ?_, ?_⟩
  · rw [hmax]
    apply listMax_congr
    · intro a ha
      obtain ⟨pq, hpq, hpa⟩ := List.mem_map.mp ha
      subst hpa
      have hv := hvals pq hpq
      have hmem2 : pq.2 ∈ valuesAt ms pq.1 := listMax_mem hv
      have hday : pq.1 ∈ retainedSpec N ms := by
        rw [← hkeys]
        exact List.mem_map_of_mem _ hpq
      rw [valuesAt] at hmem2
      obtain ⟨m0, hm0, hf⟩ := List.mem_filterMap.mp hmem2
      refine ⟨pq.2, ?_, le_refl _⟩
      rw [retainedVals]
      apply List.mem_filterMap.mpr
      refine ⟨m0, hm0, ?_⟩
      cases hmv : m0.1 with
      | nonNum =>
        simp only [hmv] at hf
        exact absurd hf (by simp)
      | num q1 =>
        simp only [hmv] at hf
        by_cases hd : m0.2 = pq.1
        · rw [if_pos hd] at hf
          simp only [hmv]
          rw [if_pos (by rw [hd]; exact hday)]
          exact hf
        · rw [if_neg hd] at hf
          exact absurd hf (by simp)
    · intro b hb
      rw [retainedVals] at hb
      obtain ⟨m0, hm0, hf⟩ := List.mem_filterMap.mp hb
      cases hmv : m0.1 with
      | nonNum =>
        simp only [hmv] at hf
        exact absurd hf (by simp)
      | num q1 =>
        simp only [hmv] at hf
        by_cases hd : m0.2 ∈ retainedSpec N ms
        · rw [if_pos hd] at hf
          obtain rfl := Option.some.inj hf
          have hdk : m0.2 ∈ h.maxDict.map Prod.fst := by
            rw [hkeys]
            exact hd
          obtain ⟨pq, hpq, hpq1⟩ := List.mem_map.mp hdk
          have hv := hvals pq hpq
          have hbmem : q1 ∈ valuesAt ms pq.1 := by
            rw [valuesAt]
            apply List.mem_filterMap.mpr
            refine ⟨m0, hm0, ?_⟩
            simp only [hmv]
            rw [if_pos (by rw [hpq1])]
          exact ⟨pq.2, List.mem_map_of_mem _ hpq, le_listMax hbmem hv⟩
        · rw [if_neg hd] at hf
          exact absurd hf (by simp)
  · intro hnume
    rw [hmax]
    have hrs : retainedSpec N ms = [] := by
      rw [retainedSpec, hnume]
      simp [distinctDays, lastN]
    have hmd : h.maxDict = [] := List.map_eq_nil_iff.mp (by rw [hkeys, hrs])
    rw [hmd]
    rfl

/-- C1 witness: the amended rolling-maximum property evaluated on the
two-day feed of the counterexample. -/
theorem daily_history_rolling_max_witness :
    (runHistory 2 [(PyValue.num 100, 1), (PyValue.num 5, 10)]).1.max =
      listMax (retainedVals 2 [(PyValue.num 100, 1), (PyValue.num 5, 10)]) := by
  obtain ⟨h, hrun, hmax, _⟩ :=
    daily_history_rolling_max 2 (by decide) [(PyValue.num 100, 1), (PyValue.num 5, 10)]
      (by decide)
  rw [hrun]
  exact hmax

/-- C2 (code bug): with a single statically configured light sensor and
a registry with no entities literally named after the reading-record
keys, an "unavailable" report from that lone sensor is ignored
entirely — the stored state never becomes the sentinel, no
"light_lux unavailable" problem is computed, and the status is not
recomputed — because the sibling-health test iterates the reading
record's keys instead of the category's sensor list. -/
theorem lone_unavailable_update_ignored :
    stateChanged lightOnlyCfg (fun _ => false) (Plant.init lightOnlyCfg)
        "sensor.myplant_light_lux"
        { state := SensorState.unavailable, day := 0, unitOverride := none } =
      (Plant.init lightOnlyCfg, none) ∧
    (Plant.init lightOnlyCfg).state = none ∧
    (Plant.init lightOnlyCfg).problems = "none" ∧
    (dictGet (Plant.init lightOnlyCfg).readings Reading.light_lux).map
        ReadingRec.state = some RState.null := by
  refine ⟨by decide, by decide, by decide, by decide⟩

/-- C3: for every capacity `N > 0` and arbitrary call sequence, no call
raises; whenever a deque exists it is strictly increasing (hence
duplicate-free) and holds at most `N` days; and a numeric measurement
for a new day arriving at full capacity evicts exactly the single
oldest day together with its aggregate, appending the new day and its
seed value. -/
theorem daily_history_bounded_window (N : Nat) (hN : 0 < N) (ms : List (PyValue × Nat)) :
    ∃ h, runHistory N ms = (h, none) ∧
      (∀ ds, h.days = some ds → ds.Sorted (· < ·) ∧ ds.Nodup ∧ ds.length ≤ N) ∧
      (∀ ds c q d, h.days = some ds → ds.length = N → ds.getLast? = some c → c < d →
        h.addMeasurement (PyValue.num q) d =
          ({ h with
              days := some (ds.tail ++ [d])
              maxDict := h.maxDict.tail ++ [(d, q)]
              max := listMax ((h.maxDict.tail ++ [(d, q)]).map Prod.snd) }, none)) := by
  obtain ⟨h, hrun, hlen, hmax, hwcases⟩ := runHistory_wf N hN ms
  refine ⟨h, hrun, ?_, ?_⟩
  · intro ds hds
    rcases hwcases with ⟨hdn, _⟩ | ⟨ds2, hds2, hne2, hsort2, hlenle2, hkeys2⟩
    · rw [hds] at hdn
      exact Option.noConfusion hdn
    · obtain rfl := Option.some.inj (hds.symm.trans hds2)
      exact ⟨hsort2, hsort2.imp (fun hab => ne_of_lt hab), hlenle2⟩
  · intro ds c q d hds hdslen hdc hcd
    rcases hwcases with ⟨hdn, _⟩ | ⟨ds2, hds2, hne2, hsort2, hlenle2, hkeys2⟩
    · rw [hds] at hdn
      exact Option.noConfusion hdn
    · obtain rfl := Option.some.inj (hds.symm.trans hds2)
      obtain ⟨o, rest, rfl⟩ : ∃ o rest, ds = o :: rest := by
        cases ds with
        | nil => exact absurd rfl hne2
        | cons o rest => exact ⟨o, rest, rfl⟩
      obtain ⟨p0, mdT, hmdeq⟩ : ∃ p0 mdT, h.maxDict = p0 :: mdT := by
        cases hmd0 : h.maxDict with
        | nil =>
          rw [hmd0] at hkeys2
          simp at hkeys2
        | cons p0 mdT => exact ⟨p0, mdT, rfl⟩
      have hkor := hkeys2
      rw [hmdeq] at hkor
      simp only [List.map_cons, List.cons.injEq] at hkor
      obtain ⟨hp0, hmdT⟩ := hkor
      have hnd2 : (o :: rest).Nodup := hsort2.imp (fun hab => ne_of_lt hab)
      have horest : o ∉ rest := (List.nodup_cons.mp hnd2).1
      have hdel : dictDel h.maxDict o = mdT := by
        rw [hmdeq, ← hp0]
        have hpe : p0 = (p0.1, p0.2) := rfl
        rw [hpe]
        exact dictDel_cons_head (by rw [hmdT]; exact (hp0 ▸ horest))
      have hget : (dictGet h.maxDict o).isSome = true := by
        rw [dictGet_isSome, hmdeq, List.map_cons, hp0]
        exact List.mem_cons_self _ _
      have hgc : (o :: rest).getLast (List.cons_ne_nil o rest) = c :=
        Option.some.inj ((List.getLast?_eq_getLast _ _).symm.trans hdc)
      have hdaynotT : d ∉ (dictDel h.maxDict o).map Prod.fst := by
        rw [hdel, hmdT]
        intro hmem
        have hle := sorted_le_getLast hsort2
          (List.getLast?_eq_getLast _ (List.cons_ne_nil o rest))
          (List.mem_cons_of_mem o hmem)
        rw [hgc] at hle
        omega
      have hstep := measureStep_evict q hds2 (by rw [hgc]; omega) (by rw [hgc]; omega)
        (by rw [hlen, ← hdslen]) hget hdaynotT
      rw [hdel] at hstep
      obtain ⟨m2, hm2⟩ := listMax_ne_none
        (by simp : ((mdT ++ [(d, q)]).map Prod.snd) ≠ [])
      have heq := addMeasurement_of_step hstep hm2
      rw [heq, hmdeq]
      simp only [List.tail_cons, hm2]

/-- C3 witness: a full two-day history receiving a third day evicts
exactly the oldest day and its aggregate. -/
theorem daily_history_bounded_window_witness :
    DailyHistory.addMeasurement twoDayHist (PyValue.num 3) 3 =
      (twoDayHistEvicted, none) := by
  obtain ⟨h, hrun, hshape, hev⟩ :=
    daily_history_bounded_window 2 (by decide) [(PyValue.num 1, 1), (PyValue.num 2, 2)]
  have hh : h = twoDayHist := by
    have hcomp : runHistory 2 [(PyValue.num 1, 1), (PyValue.num 2, 2)] =
        (twoDayHist, none) := by decide
    rw [hcomp] at hrun
    exact ((Prod.mk.inj hrun).1).symm
  subst hh
  have hres := hev [1, 2] 2 3 3 rfl rfl (by decide) (by decide)
  rw [hres]
  decide

/-- C5 counterexample: feeding a non-numeric value at a (new) day does
not open the day: the call returns before any day handling, so the
history still has no deque and `max` is still null. -/
theorem nonnumeric_no_day_cex :
    runHistory 3 [(PyValue.nonNum, 1)] = (DailyHistory.init 3, none) ∧
    (DailyHistory.init 3).days = none ∧
    (DailyHistory.init 3).max = none :=
  ⟨rfl, rfl, rfl⟩

/-- C5 (amended): a non-numeric value is dropped before any day
handling: the call never raises and leaves the history — deque,
aggregates and `max` — entirely unchanged (in particular no day is
opened and `max` stays null until a numeric value arrives); dropping
such calls anywhere in a trace does not change the run at all. -/
theorem nonnumeric_dropped (h : DailyHistory) (d : Nat) (N : Nat)
    (ms1 ms2 : List (PyValue × Nat)) :
    h.addMeasurement PyValue.nonNum d = (h, none) ∧
    runHistory N (ms1 ++ (PyValue.nonNum, d) :: ms2) = runHistory N (ms1 ++ ms2) := by
  refine ⟨rfl, ?_⟩
  unfold runHistory
  rw [List.foldl_append, List.foldl_append, List.foldl_cons]
  congr 1
  exact runStep_nonNum _ d

/-- C6: in any reachable history with a positive capacity and at least
one retained day, a measurement for a day strictly before the most
recently opened day never raises and leaves the whole state (deque,
aggregates, `max`) identical. -/
theorem old_measurement_no_effect (N : Nat) (hN : 0 < N) (ms : List (PyValue × Nat))
    (h : DailyHistory) (hrun : runHistory N ms = (h, none)) (ds : List Nat)
    (hds : h.days = some ds) (c : Nat) (hc : ds.getLast? = some c) (v : PyValue)
    (d : Nat) (hd : d < c) :
    h.addMeasurement v d = (h, none) := by
  obtain ⟨h2, hrun2, hlen, hmax, hwcases⟩ := runHistory_wf N hN ms
  have hhe : h2 = h := (Prod.mk.inj (hrun2.symm.trans hrun)).1
  rw [hhe] at hlen hmax hwcases
  cases v with
  | nonNum => rfl
  | num q =>
    rcases hwcases with ⟨hdn, _⟩ | ⟨ds2, hds2, hne2, hsort2, hlenle2, hkeys2⟩
    · rw [hds] at hdn
      exact Option.noConfusion hdn
    · obtain rfl := Option.some.inj (hds.symm.trans hds2)
      have hgc : ds.getLast hne2 = c :=
        Option.some.inj ((List.getLast?_eq_getLast ds hne2).symm.trans hc)
      have hstep : measureStep h q d = ((some ds, h.maxDict), none) := by
        unfold measureStep
        rw [hds]
        simp only [List.getLast?_eq_getLast ds hne2]
        rw [if_neg (by rw [hgc]; omega), if_neg (by rw [hgc]; omega)]
      obtain ⟨m, hm⟩ := listMax_ne_none (mapsnd_ne_nil hkeys2 hne2)
      have heq := addMeasurement_of_step hstep hm
      rw [heq]
      have hmaxh : h.max = some m := hmax.trans hm
      rw [← hds, ← hmaxh]

/-- C6 witness: an old measurement against a concrete one-day history
leaves it untouched. -/
theorem old_measurement_no_effect_witness :
    DailyHistory.addMeasurement oneDayHist (PyValue.num 7) 1 = (oneDayHist, none) :=
  old_measurement_no_effect 2 (by decide) [(PyValue.num 5, 3)] oneDayHist (by decide)
    [3] rfl 3 rfl (PyValue.num 7) 1 (by decide)

/-- C7: after a status recomputation with collected problem list `ps`
(in reading-iteration order, as the first conjunct states): an empty
list yields the "ok" status with the "none" sentinel; a nonempty list
all of whose entries mention "unavailable" yields the "unavailable"
status; otherwise the status is "problem"; in both nonempty cases the
problem description is the comma-joined list. -/
theorem status_recomputation (p : Plant) (ps : List String)
    (hps : collectProblems p.readings p.brightness.max = some ps) :
    ps = p.readings.filterMap
        (fun pr => (checkReading pr.1 pr.2 p.brightness.max).bind id) ∧
    (ps = [] → updateState p = ({ p with state := some "ok", problems := "none" }, none)) ∧
    (ps ≠ [] → ps.all (fun s => pyIn "unavailable" s) = true →
      updateState p =
        ({ p with
            state := some "unavailable"
            problems := String.intercalate ", " ps }, none)) ∧
    (ps ≠ [] → ps.all (fun s => pyIn "unavailable" s) = false →
      updateState p =
        ({ p with
            state := some "problem"
            problems := String.intercalate ", " ps }, none)) := by
  refine ⟨collectProblems_eq_filterMap hps, ?_, ?_, ?_⟩
  · intro hempty
    subst hempty
    unfold updateState
    simp only [hps]
    rfl
  · intro hne hall
    unfold updateState
    simp only [hps]
    rw [if_neg (by simp [hne])]
    rw [hall]
    rfl
  · intro hne hall
    unfold updateState
    simp only [hps]
    rw [if_neg (by simp [hne])]
    rw [hall]
    rfl

/-- C7 witness: a plant with one low temperature reading recomputes to
the "problem" status with the joined problem list. -/
theorem status_recomputation_witness :
    updateState tempProblemPlant =
      ({ tempProblemPlant with
          state := some "problem"
          problems := String.intercalate ", " ["temp low"] }, none) :=
  ((status_recomputation tempProblemPlant ["temp low"] (by decide)).2.2.2)
    (by decide) (by decide)

/-- C8: on a sensor id with no cached association, the categories are
tried in `READINGS` enumeration order, the first whose name is a
substring of the id wins and is cached; and if none matches, the update
raises to the caller and leaves the plant entirely unchanged. -/
theorem sensor_association (cfg : PlantCfg) (reg : String → Bool) (p : Plant) (e : String)
    (ev : StateEvent) (hnc : dictGet p.sensors e = none) :
    (∀ r p1, associate cfg p e = some (r, p1) →
      pyIn r.name e = true ∧
      (∃ l₁ l₂, readingsOrder = l₁ ++ r :: l₂ ∧ ∀ r' ∈ l₁, pyIn r'.name e = false) ∧
      dictGet p1.sensors e = some r) ∧
    ((∀ r ∈ readingsOrder, pyIn r.name e = false) →
      associate cfg p e = none ∧ stateChanged cfg reg p e ev = (p, some PErr.assoc)) := by
  constructor
  · intro r p1 hassoc
    obtain ⟨_, _, _, hcache, _, _⟩ := associate_effects hassoc
    rw [associate] at hassoc
    cases hf : readingsOrder.find? (fun r => pyIn r.name e) with
    | none =>
      rw [hf] at hassoc
      exact absurd hassoc (by simp)
    | some r0 =>
      simp only [hf] at hassoc
      obtain ⟨hp, l₁, l₂, hsplit, hall⟩ := find?_eq_some_split hf
      have hr : r0 = r := by
        cases hg : dictGet p.readings r0 with
        | some rec0 =>
          simp only [hg, Option.some.injEq, Prod.mk.injEq] at hassoc
          exact hassoc.1
        | none =>
          simp only [hg, Option.some.injEq, Prod.mk.injEq] at hassoc
          exact hassoc.1
      subst hr
      exact ⟨hp, ⟨l₁, l₂, hsplit, hall⟩, hcache⟩
  · intro hnone
    have hfn : readingsOrder.find? (fun r => pyIn r.name e) = none := by
      rw [List.find?_eq_none]
      intro r hr
      simp [hnone r hr]
    have hasn : associate cfg p e = none := by
      rw [associate, hfn]
    refine ⟨hasn, ?_⟩
    unfold stateChanged
    simp only [hnc, hasn]

/-- C8 witness: an unmatchable sensor id raises and leaves the empty
plant unchanged. -/
theorem sensor_association_witness :
    stateChanged lightOnlyCfg (fun _ => false) emptyPlant "sensor.foo_bar"
        { state := SensorState.num 1, day := 0, unitOverride := none } =
      (emptyPlant, some PErr.assoc) := by
  have h := (sensor_association lightOnlyCfg (fun _ => false) emptyPlant "sensor.foo_bar"
    { state := SensorState.num 1, day := 0, unitOverride := none } (by decide)).2
  exact (h (by decide)).2

/-- C9: in every reachable plant state — assuming the host registry has
no unavailable entities literally named "sensors", "state",
"unit_of_measurement", "minimum" or "maximum" — every stored reading
state is null or a number (never a sentinel string); the overall status
never equals "unavailable"; no collected problem string ever mentions
"unavailable"; and `state_changed` ignores an "unavailable" update
regardless of sibling sensor health, because its sibling-health test
iterates the reading record's keys. -/
theorem no_unavailable_status (cfg : PlantCfg) (reg : String → Bool)
    (hreg : ∀ k ∈ readingRecKeys, reg k = false)
    (evs : List (String × StateEvent)) :
    recsNullOrNum (runPlant cfg reg evs).readings ∧
    (runPlant cfg reg evs).state ≠ some "unavailable" ∧
    (∀ ps, collectProblems (runPlant cfg reg evs).readings
        (runPlant cfg reg evs).brightness.max = some ps →
      ∀ s ∈ ps, pyIn "unavailable" s = false) ∧
    (∀ e ev, ev.state = SensorState.unavailable →
      (stateChanged cfg reg (runPlant cfg reg evs) e ev).1.state =
          (runPlant cfg reg evs).state ∧
      (stateChanged cfg reg (runPlant cfg reg evs) e ev).1.problems =
          (runPlant cfg reg evs).problems ∧
      (stateChanged cfg reg (runPlant cfg reg evs) e ev).1.brightness =
          (runPlant cfg reg evs).brightness ∧
      (∀ r rec, dictGet (runPlant cfg reg evs).readings r = some rec →
        ∃ rec', dictGet (stateChanged cfg reg (runPlant cfg reg evs) e ev).1.readings r =
            some rec' ∧ rec'.state = rec.state) ∧
      (stateChanged cfg reg (runPlant cfg reg evs) e ev).2 ≠ some PErr.value) := by
  obtain ⟨hrec, hstate⟩ := runPlant_inv cfg reg evs
  refine ⟨hrec, hstate, ?_, ?_⟩
  · intro ps hps s hs
    obtain ⟨r, hlh⟩ := collectProblems_shape hrec hps s hs
    rcases hlh with rfl | rfl
    · exact (lowhigh_not_unavailable r).1
    · exact (lowhigh_not_unavailable r).2
  · intro e ev hev
    exact stateChanged_unavailable hreg _ e ev hev

/-- C9 witness: the light-only configuration never reaches the
"unavailable" status. -/
theorem no_unavailable_status_witness :
    (runPlant lightOnlyCfg (fun _ => false) []).state ≠ some "unavailable" :=
  (no_unavailable_status lightOnlyCfg (fun _ => false) (fun _ _ => rfl) []).2.1

/-- C4 counterexample: a configured minimum bound of 0 with a stored
temperature of -5 (below the bound) yields no problem at all, not
"temp low": a zero bound is falsy in `_check_min`. -/
theorem zero_minimum_bound_cex :
    zeroMinRec.minimum = some 0 ∧ zeroMinRec.state = RState.num (-5) ∧ ((-5 : ℚ) < 0) ∧
    checkReading Reading.temp zeroMinRec none = some none ∧
    checkReading Reading.temp zeroMinRec none ≠ some (some "temp low") := by
  refine ⟨by decide, by decide, by decide, by decide, by decide⟩

/-- C4 (amended): for a numeric stored state, the per-category check
tries the minimum first and the maximum second with first match
winning; the effective value for the minimum comparison is the rolling
history maximum for `light_lux` and the raw state otherwise; a
configured and *nonzero* minimum above the effective value yields
"<category> low", else a configured and nonzero maximum below the raw
state yields "<category> high", else no problem. -/
theorem threshold_check_spec (r : Reading) (rec : ReadingRec) (histMax : Option ℚ)
    (q v : ℚ) (hstate : rec.state = RState.num q)
    (heff : (if r = Reading.light_lux then histMax else some q) = some v) :
    checkReading r rec histMax = some (checkSpec r.name rec.minimum rec.maximum v q) := by
  simp only [checkReading, hstate]
  rw [checkMin_eq_spec r rec.minimum histMax q v heff]
  cases hmin : rec.minimum with
  | none => simp [checkSpec, checkMax_eq_spec]
  | some m =>
    by_cases hm : m = 0
    · subst hm
      simp [checkSpec, checkMax_eq_spec]
    · by_cases hlt : v < m
      · simp [checkSpec, hm, hlt]
      · simp [checkSpec, hm, hlt, checkMax_eq_spec]

/-- C4 witness: the claim's scenario — temperature bounds 10/30, state
5 — yields "temp low". -/
theorem threshold_check_spec_witness :
    checkReading Reading.temp tempRec5 none =
      some (checkSpec "temp" (some 10) (some 30) 5 5) ∧
    checkSpec "temp" (some 10) (some 30) 5 5 = some "temp low" := by
  constructor
  · exact threshold_check_spec Reading.temp tempRec5 none 5 5 rfl (by decide)
  · decide

/-- C10: a configured bound of 0 is falsy in `_check_min`/`_check_max`
and behaves exactly as an absent bound: the minimum check never reports
"<category> low" (for any stored state, negative included) and the
maximum check never reports "<category> high". -/
theorem zero_bound_ignored (r : Reading) (histMax : Option ℚ) (s : ℚ) :
    checkMin r (some 0) histMax s = checkMin r none histMax s ∧
    checkMin r (some 0) histMax s = some none ∧
    checkMax r (some 0) s = checkMax r none s ∧
    checkMax r (some 0) s = none := by
  refine ⟨?_, ?_, ?_, ?_⟩ <;> simp [checkMin, checkMax, truthyQ]

end EasyPlant
